import Mathlib

/-!
Verification development for the meshing/triangulation core of the
`scad_tree` library (ear-clipping triangulator, linear/rotational
extrusion and path-sweep polyhedron builders, cubic bezier chains).

The Rust sources are shallowly embedded here.  Scalars (`f64` in the
source) are modelled as exact rationals `ℚ`; the claims settled below
are about counts, index bookkeeping and branch structure, none of which
depend on rounding.  The transcendental leaves (`sin`/`cos`/`sqrt`,
which have no exact rational embedding) are abstracted as a parameter
record `NumOps`; every other arithmetic step follows the source
expression for expression.  Rust `assert!` failures and out-of-bounds
index panics are modelled by `Option.none`.  `u64`/`u16` indices are
modelled as `Nat` (the counts involved are far below any wrap-around).
-/

/- Batteries marks the `Rat` arithmetic operations `@[irreducible]`,
which blocks `decide` on concrete rational computations; everything here
is kernel-computable once they are unfolded, so restore the default
reducibility (this does not change any definitional equality). -/
set_option allowUnsafeReducibility true

attribute [semireducible] Rat.add Rat.mul Rat.sub Rat.inv

namespace ScadTree

/-- `Pt2` from scad_tree_math/src/pt2.rs (fields `x y : f64`, modelled as `ℚ`). -/
structure Pt2 where
  x : ℚ
  y : ℚ
  deriving DecidableEq, Repr

/-- `Pt3` from scad_tree_math/src/pt3.rs. -/
structure Pt3 where
  x : ℚ
  y : ℚ
  z : ℚ
  deriving DecidableEq, Repr

/-- A tagged 2D point `(u64, Pt2)` as used throughout triangulate.rs:
the first component is the original vertex index. -/
abbrev TPt := Nat × Pt2

/-- Default tagged point used to totalize `Vec` indexing (`polygon[i]`);
every access in the development is in bounds, the default is never read
in a reachable branch. -/
def dTPt : TPt := (0, ⟨0, 0⟩)

/-- `approx_eq` from scadder_math/src/lib.rs: `(a - b).abs() < epsilon`. -/
def approx_eq (a b epsilon : ℚ) : Bool := |a - b| < epsilon

/-- The epsilon `1.0e-5` used by triangulate.rs. -/
def triEps : ℚ := 1 / 100000

/-- `is_ccw` from triangulate.rs.  The Rust function receives the
3-element vector `[a, b, c]` and reads `pts[0] = a`, `pts[1] = b`,
`pts[2] = c`. -/
def is_ccw (a b c : TPt) : Bool :=
  (b.2.x - a.2.x) * (c.2.y - a.2.y) - (c.2.x - a.2.x) * (b.2.y - a.2.y) > 0

/-- `in_triangle` from triangulate.rs (barycentric containment with the
`approx_eq(denom, 0.0, 1.0e-5)` degenerate guard that reports every
point as inside). -/
def in_triangle (p a b c : TPt) : Bool :=
  let denom := (b.2.y - c.2.y) * (a.2.x - c.2.x) + (c.2.x - b.2.x) * (a.2.y - c.2.y)
  if approx_eq denom 0 triEps then true
  else
    let d := 1 / denom
    let alpha := d * ((b.2.y - c.2.y) * (p.2.x - c.2.x) + (c.2.x - b.2.x) * (p.2.y - c.2.y))
    if alpha < 0 then false
    else
      let beta := d * ((c.2.y - a.2.y) * (p.2.x - c.2.x) + (a.2.x - c.2.x) * (p.2.y - c.2.y))
      if beta < 0 then false
      else
        let gamma := 1 - alpha - beta
        if gamma < 0 then false else true

/-- Predecessor index in the working ring:
`if index == 0 { len - 1 } else { index - 1 }`. -/
def prevIdx (len i : Nat) : Nat := if i = 0 then len - 1 else i - 1

/-- Successor index in the working ring:
`if index == len - 1 { 0 } else { index + 1 }`. -/
def nextIdx (len i : Nat) : Nat := if i = len - 1 then 0 else i + 1

/-- The leftmost-vertex scan at the top of `triangulate` (lines 172-182):
starts from `(0, polygon[0].1)` and updates on strictly smaller `x`, or
`x` within `1.0e-5` and strictly smaller `y`. -/
def leftmostScan (polygon : List TPt) : Nat × Pt2 :=
  (List.range polygon.length).foldl
    (fun acc i =>
      let p := (polygon.getD i dTPt).2
      if p.x < acc.2.x ∨ (approx_eq p.x acc.2.x triEps ∧ p.y < acc.2.y) then (i, p) else acc)
    (0, (polygon.getD 0 dTPt).2)

/-- The per-candidate ear test of the `while` loop body (lines 203-244):
reject when the triangle predecessor/candidate/successor is ccw, then
scan only the vertices at positions `index+1 .. len-1` (skipping the
predecessor and successor; the candidate itself cannot occur there) and
reject when `in_triangle` reports one of them inside. -/
def earAt (poly : List TPt) (i : Nat) : Bool :=
  let len := poly.length
  let p := prevIdx len i
  let n := nextIdx len i
  let a := poly.getD p dTPt
  let b := poly.getD i dTPt
  let c := poly.getD n dTPt
  if is_ccw a b c then false
  else
    (List.range' (i + 1) (len - (i + 1))).all fun j =>
      j = p || j = n || !(in_triangle (poly.getD j dTPt) a b c)

/-- The scan `for i in &polygon { .. if ear { eartip = index; } }`:
the first index (from 0) passing `earAt`, if any. -/
def findEar (poly : List TPt) : Option Nat :=
  (List.range poly.length).find? fun i => earAt poly i

theorem findEar_lt {poly : List TPt} {e : Nat} (h : findEar poly = some e) :
    e < poly.length := by
  have hm := List.mem_of_find?_eq_some h
  exact List.mem_range.mp hm

/-- The body of the `while polygon.len() >= 3` loop of `triangulate`
(lines 199-263), with an explicit iteration bound: every iteration
removes one ring vertex, so `polygon.length` iterations always suffice
and the fuel-exhausted branch is unreachable from `clipLoop`.  The loop
returns the emitted flat triangle-index list together with the final
working ring (it `break`s, returning what was accumulated, as soon as
no ear is found). -/
def clipLoopF : Nat → List TPt → List Nat × List TPt
  | 0, polygon => ([], polygon)
  | fuel + 1, polygon =>
    if polygon.length < 3 then ([], polygon)
    else
      match findEar polygon with
      | none => ([], polygon)
      | some e =>
        let len := polygon.length
        let a := polygon.getD (prevIdx len e) dTPt
        let b := polygon.getD e dTPt
        let c := polygon.getD (nextIdx len e) dTPt
        let rest := clipLoopF fuel (polygon.eraseIdx e)
        (a.1 :: b.1 :: c.1 :: rest.1, rest.2)

/-- The `while` loop itself: run the body with its iteration bound. -/
def clipLoop (polygon : List TPt) : List Nat × List TPt :=
  clipLoopF polygon.length polygon

/-- `triangulate` (lines 169-266): `polygon[0]` panics on an empty input
(modelled `none`); the leftmost-vertex winding `assert!` aborts
(modelled `none`); otherwise the clip loop runs to completion or silent
`break` and the accumulated triangles are returned. -/
def triangulate (polygon : List TPt) : Option (List Nat) :=
  if polygon.isEmpty then none
  else
    let len := polygon.length
    let idx := (leftmostScan polygon).1
    let a := polygon.getD (prevIdx len idx) dTPt
    let b := polygon.getD idx dTPt
    let c := polygon.getD (nextIdx len idx) dTPt
    if is_ccw a b c then none
    else some (clipLoop polygon).1

/-- The tagging loop of `triangulate2d`: pair every vertex with its
original index. -/
def tagPts (vertices : List Pt2) : List TPt := vertices.enum

/-- `triangulate2d` (lines 158-166): `assert!(vertices.len() > 3)`
then run `triangulate` on the tagged points. -/
def triangulate2d (vertices : List Pt2) : Option (List Nat) :=
  if vertices.length > 3 then triangulate (tagPts vertices) else none

/-- The axis-projection of `triangulate3d` (lines 83-148): pick the
dominant normal axis and project, flipping signs so the projected
winding matches the 2D convention.  The final `_ => {}` arm of the Rust
`match` is unreachable over exact arithmetic (some axis always
dominates) and is modelled by the empty polygon. -/
def projectPolygon (vertices : List Pt3) (normal : Pt3) : List TPt :=
  if |normal.x| ≥ |normal.y| ∧ |normal.x| ≥ |normal.z| then
    if normal.x ≥ 0 then vertices.enum.map fun iv => (iv.1, ⟨iv.2.y, iv.2.z⟩)
    else vertices.enum.map fun iv => (iv.1, ⟨-iv.2.y, iv.2.z⟩)
  else if |normal.y| ≥ |normal.x| ∧ |normal.y| ≥ |normal.z| then
    if normal.y ≥ 0 then vertices.enum.map fun iv => (iv.1, ⟨-iv.2.x, iv.2.z⟩)
    else vertices.enum.map fun iv => (iv.1, ⟨iv.2.x, iv.2.z⟩)
  else if |normal.z| ≥ |normal.x| ∧ |normal.z| ≥ |normal.y| then
    if normal.z ≥ 0 then vertices.enum.map fun iv => (iv.1, ⟨iv.2.x, iv.2.y⟩)
    else vertices.enum.map fun iv => (iv.1, ⟨-iv.2.x, iv.2.y⟩)
  else []

/-- `triangulate3d` (lines 81-151): `assert!(vertices.len() > 3)`,
project onto the dominant-axis plane, then `triangulate`. -/
def triangulate3d (vertices : List Pt3) (normal : Pt3) : Option (List Nat) :=
  if vertices.length > 3 then triangulate (projectPolygon vertices normal) else none

/-! ### Properties of the clip loop -/

theorem prevIdx_lt {len i : Nat} (hlen : 0 < len) (hi : i < len) : prevIdx len i < len := by
  unfold prevIdx; split <;> omega

theorem nextIdx_lt {len i : Nat} (hlen : 0 < len) (hi : i < len) : nextIdx len i < len := by
  unfold nextIdx; split <;> omega

/-- The final working ring is no longer than the input ring. -/
theorem clipLoopF_snd_le : ∀ (fuel : Nat) (polygon : List TPt),
    (clipLoopF fuel polygon).2.length ≤ polygon.length := by
  intro fuel
  induction fuel with
  | zero => intro polygon; simp [clipLoopF]
  | succ n ih =>
    intro polygon
    rw [clipLoopF]
    split
    · simp
    · cases hfind : findEar polygon with
      | none => simp
      | some e =>
        have he := findEar_lt hfind
        have := List.length_eraseIdx_of_lt he
        simp only
        have := ih (polygon.eraseIdx e)
        omega

theorem clipLoop_snd_le (polygon : List TPt) :
    (clipLoop polygon).2.length ≤ polygon.length :=
  clipLoopF_snd_le polygon.length polygon

/-- The loop never shrinks the working ring below 2 vertices. -/
theorem clipLoopF_snd_ge : ∀ (fuel : Nat) (polygon : List TPt),
    2 ≤ polygon.length → 2 ≤ (clipLoopF fuel polygon).2.length := by
  intro fuel
  induction fuel with
  | zero => intro polygon h2; simpa [clipLoopF] using h2
  | succ n ih =>
    intro polygon h2
    rw [clipLoopF]
    split
    · exact h2
    · cases hfind : findEar polygon with
      | none => exact h2
      | some e =>
        have he := findEar_lt hfind
        have := List.length_eraseIdx_of_lt he
        simp only
        exact ih (polygon.eraseIdx e) (by omega)

theorem clipLoop_snd_ge (polygon : List TPt) (h2 : 2 ≤ polygon.length) :
    2 ≤ (clipLoop polygon).2.length :=
  clipLoopF_snd_ge polygon.length polygon h2

/-- Every clipped ear emits exactly three indices: the flat output
length is three times the number of removed vertices. -/
theorem clipLoopF_fst_length : ∀ (fuel : Nat) (polygon : List TPt),
    (clipLoopF fuel polygon).1.length =
      3 * (polygon.length - (clipLoopF fuel polygon).2.length) := by
  intro fuel
  induction fuel with
  | zero => intro polygon; simp [clipLoopF]
  | succ n ih =>
    intro polygon
    rw [clipLoopF]
    split
    · simp
    · cases hfind : findEar polygon with
      | none => simp
      | some e =>
        have he := findEar_lt hfind
        have hlen := List.length_eraseIdx_of_lt he
        have hle := clipLoopF_snd_le n (polygon.eraseIdx e)
        have hih := ih (polygon.eraseIdx e)
        simp only [List.length_cons]
        omega

theorem clipLoop_fst_length (polygon : List TPt) :
    (clipLoop polygon).1.length =
      3 * (polygon.length - (clipLoop polygon).2.length) :=
  clipLoopF_fst_length polygon.length polygon

/-- Every index the loop emits is the original tag of some ring
vertex. -/
theorem clipLoopF_fst_mem : ∀ (fuel : Nat) (polygon : List TPt),
    ∀ i ∈ (clipLoopF fuel polygon).1, ∃ pt ∈ polygon, pt.1 = i := by
  intro fuel
  induction fuel with
  | zero => intro polygon; simp [clipLoopF]
  | succ n ih =>
    intro polygon
    rw [clipLoopF]
    split
    · simp
    · cases hfind : findEar polygon with
      | none => simp
      | some e =>
        have he := findEar_lt hfind
        have hpos : 0 < polygon.length := Nat.lt_of_le_of_lt (Nat.zero_le e) he
        intro i hi
        simp only [List.mem_cons] at hi
        have hmem : ∀ k, k < polygon.length → (polygon.getD k dTPt) ∈ polygon := by
          intro k hk
          rw [List.getD_eq_getElem polygon dTPt hk]
          exact List.getElem_mem hk
        rcases hi with hi | hi | hi | hi
        · exact ⟨polygon.getD (prevIdx polygon.length e) dTPt,
            hmem _ (prevIdx_lt hpos he), hi.symm⟩
        · exact ⟨polygon.getD e dTPt, hmem _ he, hi.symm⟩
        · exact ⟨polygon.getD (nextIdx polygon.length e) dTPt,
            hmem _ (nextIdx_lt hpos he), hi.symm⟩
        · obtain ⟨pt, hpt, hpti⟩ := ih (polygon.eraseIdx e) i hi
          exact ⟨pt, List.mem_of_mem_eraseIdx hpt, hpti⟩

theorem clipLoop_fst_mem (polygon : List TPt) :
    ∀ i ∈ (clipLoop polygon).1, ∃ pt ∈ polygon, pt.1 = i :=
  clipLoopF_fst_mem polygon.length polygon

/-- After the entry assertions pass, a call to `triangulate` always
returns a list (the loop `break` yields a partial result instead of an
error). -/
theorem triangulate_isSome (polygon : List TPt) (hne : ¬polygon.isEmpty)
    (hccw : is_ccw
      (polygon.getD (prevIdx polygon.length (leftmostScan polygon).1) dTPt)
      (polygon.getD (leftmostScan polygon).1 dTPt)
      (polygon.getD (nextIdx polygon.length (leftmostScan polygon).1) dTPt) = false) :
    triangulate polygon = some (clipLoop polygon).1 := by
  rw [triangulate, if_neg hne]
  simp only [hccw, Bool.false_eq_true, if_false]

/-- When the clip loop runs to completion (fewer than 3 vertices remain)
the output covers the ring with exactly `n - 2` triangles. -/
theorem triangulate_complete_length (polygon : List TPt) (out : List Nat)
    (h : triangulate polygon = some out)
    (hdone : (clipLoop polygon).2.length < 3)
    (h2 : 2 ≤ polygon.length) :
    out.length = 3 * (polygon.length - 2) := by
  rw [triangulate] at h
  split at h
  · exact absurd h (by simp)
  · dsimp only at h
    split at h
    · exact absurd h (by simp)
    · have hout : out = (clipLoop polygon).1 := by
        injection h with h2; exact h2.symm
      have hge := clipLoop_snd_ge polygon h2
      have hlen := clipLoop_fst_length polygon
      rw [hout, hlen]
      omega

/-- Modelled from the spec: `triangulate2d_rev` is re-exported from the
triangulate module in lib.rs but its definition is not present under
src/.  Per the spec the bottom cap is "triangulated at z=0, winding
reversed so the cap faces outward/downward": same triangulation with
every triangle's winding reversed (reversing the flat index list
reverses each triple's winding). -/
def triangulate2d_rev (vertices : List Pt2) : Option (List Nat) :=
  (triangulate2d vertices).map List.reverse

/-- Modelled from the spec: `triangulate3d_rev`, winding-reversed
variant of `triangulate3d` (not present under src/, see
`triangulate2d_rev`). -/
def triangulate3d_rev (vertices : List Pt3) (normal : Pt3) : Option (List Nat) :=
  (triangulate3d vertices normal).map List.reverse

/-! ### Geometry primitives for the polyhedron builders (dim3.rs)

`sin`, `cos` and `sqrt` on `f64` have no exact rational embedding; they
are abstracted as the parameter record `NumOps`.  Every claim settled
against the builders concerns counts and index bookkeeping, which are
independent of the values these three functions return. -/

/-- The transcendental leaves of the source, as parameters: `dsin`,
`dcos` (scadder_math/src/lib.rs) and `f64::sqrt`. -/
structure NumOps where
  sinD : ℚ → ℚ
  cosD : ℚ → ℚ
  sqrtQ : ℚ → ℚ

instance : Add Pt3 := ⟨fun a b => ⟨a.x + b.x, a.y + b.y, a.z + b.z⟩⟩

instance : Sub Pt3 := ⟨fun a b => ⟨a.x - b.x, a.y - b.y, a.z - b.z⟩⟩

/-- `Pt3::dot`. -/
def Pt3.dot (a b : Pt3) : ℚ := a.x * b.x + a.y * b.y + a.z * b.z

/-- `Pt3::cross`. -/
def Pt3.cross (a b : Pt3) : Pt3 :=
  ⟨a.y * b.z - a.z * b.y, a.z * b.x - a.x * b.z, a.x * b.y - a.y * b.x⟩

/-- `Pt3::normalized` (divides by `len = sqrt(len2)`; a zero length
yields NaN components in the source, here the `ℚ` convention 0). -/
def Pt3.normalized (ops : NumOps) (a : Pt3) : Pt3 :=
  let l := ops.sqrtQ (a.dot a)
  ⟨a.x / l, a.y / l, a.z / l⟩

/-- `Pt3::rotated_z`. -/
def Pt3.rotated_z (ops : NumOps) (a : Pt3) (degrees : ℚ) : Pt3 :=
  let s := ops.sinD degrees
  let c := ops.cosD degrees
  ⟨a.x * c - a.y * s, a.x * s + a.y * c, a.z⟩

/-- `Pt2::as_pt3`. -/
def Pt2.as_pt3 (p : Pt2) (z : ℚ) : Pt3 := ⟨p.x, p.y, z⟩

/-- `Pt4` from scad_tree_math/src/pt4.rs. -/
structure Pt4 where
  x : ℚ
  y : ℚ
  z : ℚ
  w : ℚ
  deriving DecidableEq, Repr

/-- `Pt4::dot` — note the source sums only the x, y, z components and
ignores `w`. -/
def Pt4.dot (a b : Pt4) : ℚ := a.x * b.x + a.y * b.y + a.z * b.z

/-- `Pt4::as_pt3`. -/
def Pt4.as_pt3 (p : Pt4) : Pt3 := ⟨p.x, p.y, p.z⟩

/-- `Pt3::as_pt4`. -/
def Pt3.as_pt4 (p : Pt3) (w : ℚ) : Pt4 := ⟨p.x, p.y, p.z, w⟩

/-- `Mt4` (scadder_math/src/mt4.rs): four `Pt4` rows. -/
structure Mt4 where
  x : Pt4
  y : Pt4
  z : Pt4
  w : Pt4
  deriving DecidableEq, Repr

/-- `Mt4::transposed`. -/
def Mt4.transposed (m : Mt4) : Mt4 :=
  ⟨⟨m.x.x, m.y.x, m.z.x, m.w.x⟩, ⟨m.x.y, m.y.y, m.z.y, m.w.y⟩,
    ⟨m.x.z, m.y.z, m.z.z, m.w.z⟩, ⟨m.x.w, m.y.w, m.z.w, m.w.w⟩⟩

/-- `Mt4::identity`. -/
def Mt4.identity : Mt4 :=
  ⟨⟨1, 0, 0, 0⟩, ⟨0, 1, 0, 0⟩, ⟨0, 0, 1, 0⟩, ⟨0, 0, 0, 1⟩⟩

/-- `Mt4::rot_x_matrix`. -/
def Mt4.rot_x_matrix (ops : NumOps) (degrees : ℚ) : Mt4 :=
  let c := ops.cosD degrees
  let s := ops.sinD degrees
  Mt4.transposed ⟨⟨1, 0, 0, 0⟩, ⟨0, c, -s, 0⟩, ⟨0, s, c, 0⟩, ⟨0, 0, 0, 1⟩⟩

/-- `Mt4 * Pt4` (`impl Mul<Pt4> for Mt4`). -/
def Mt4.mulPt4 (m : Mt4) (p : Pt4) : Pt4 :=
  let t := m.transposed
  ⟨t.x.dot p, t.y.dot p, t.z.dot p, t.w.dot p⟩

/-- `Mt4::look_at_matrix_lh` with its parallel / anti-parallel
fallbacks. -/
def Mt4.look_at_matrix_lh (ops : NumOps) (eye center up : Pt3) : Mt4 :=
  let f := Pt3.normalized ops (center - eye)
  let s0 := up.cross f
  if s0 = (⟨0, 0, 0⟩ : Pt3) then
    if up.dot f < 0 then Mt4.rot_x_matrix ops 180 else Mt4.identity
  else
    let s := Pt3.normalized ops s0
    let u := f.cross s
    ⟨⟨s.x, s.y, s.z, -(s.dot eye)⟩, ⟨u.x, u.y, u.z, -(u.dot eye)⟩,
      ⟨f.x, f.y, f.z, -(f.dot eye)⟩, ⟨0, 0, 0, 1⟩⟩

/-! ### Polyhedron builders (dim3.rs) -/

/-- `Polyhedron { points: Pt3s, faces: Faces }`: faces are index lists
into the shared vertex list. -/
structure Polyhedron where
  points : List Pt3
  faces : List (List Nat)
  deriving Repr, DecidableEq

/-- The cap-face grouping loop `for i in (0..indices.len()).step_by(3)`:
chunks the flat index list in threes.  All lists it is applied to have
length a multiple of three (the loop emits three indices per ear), so
the remainder case never occurs. -/
def groupTris : List Nat → List (List Nat)
  | a :: b :: c :: rest => [a, b, c] :: groupTris rest
  | _ => []

/-- Default `Pt3` used to totalize `Vec` indexing; all reachable
accesses are in bounds. -/
def dPt3 : Pt3 := ⟨0, 0, 0⟩

/-- `Polyhedron::linear_extrude` (dim3.rs lines 61-103): bottom cap
(winding-reversed triangulation at z=0), top cap at z=height, and one
wall quad per profile edge.  The triangulation `assert!`s (profile
length ≤ 3) abort the call: `none`. -/
def Polyhedron.linear_extrude (points : List Pt2) (height : ℚ) : Option Polyhedron :=
  match triangulate2d_rev points with
  | none => none
  | some indices =>
    let n := points.length
    let bottom := points.map fun p => p.as_pt3 0
    let capBottom := groupTris indices
    let vertices := bottom ++ (points.map fun p => p.as_pt3 height)
    match triangulate2d points with
    | none => none
    | some indices2 =>
      let capTop := groupTris (indices2.map fun i => i + n)
      let walls := (List.range n).map fun i =>
        [i, (i + 1) % n, (i + 1) % n + n, i + n]
      some ⟨vertices, capBottom ++ capTop ++ walls⟩

/-- `Polyhedron::rotate_extrude` (dim3.rs lines 105-177).  The two
`assert!`s abort out-of-range inputs; in the partial-revolution branch
the two cap triangulations can abort as well (profile length ≤ 3). -/
def Polyhedron.rotate_extrude (ops : NumOps) (profile : List Pt2) (degrees : ℚ)
    (segments : Nat) : Option Polyhedron :=
  if ¬(0 ≤ degrees ∧ degrees ≤ 360) then none
  else if ¬(3 ≤ segments) then none
  else
    let notClosed := degrees ≠ 360
    let profile3 : List Pt3 := profile.map fun p => ⟨p.x, 0, p.y⟩
    let pl := profile3.length
    let a := degrees / (segments : ℚ)
    let startCapQ : Option (List (List Nat)) :=
      if notClosed then (triangulate3d profile3 ⟨0, -1, 0⟩).map groupTris else some []
    match startCapQ with
    | none => none
    | some startCap =>
      let ring (k : Nat) : List Pt3 :=
        let s := ops.sinD (a * (k : ℚ))
        let c := ops.cosD (a * (k : ℚ))
        profile3.map fun q => ⟨q.x * c, q.x * s, q.z⟩
      let wallQuad (seg p : Nat) : List Nat :=
        [(seg - 1) * pl + p, (seg - 1) * pl + (p + 1) % pl,
          seg * pl + (p + 1) % pl, seg * pl + p]
      let midPoints := (List.range' 1 (segments - 1)).flatMap ring
      let midWalls := (List.range' 1 (segments - 1)).flatMap fun seg =>
        (List.range pl).map (wallQuad seg)
      if notClosed then
        let lastRing := ring segments
        let lastWalls := (List.range pl).map (wallQuad segments)
        let nml := Pt3.rotated_z ops ⟨0, -1, 0⟩ (degrees + 180)
        match triangulate3d_rev profile3 nml with
        | none => none
        | some endTris =>
          let endCap := groupTris (endTris.map fun i => i + segments * pl)
          some ⟨profile3 ++ midPoints ++ lastRing,
            startCap ++ midWalls ++ lastWalls ++ endCap⟩
      else
        let closeWalls := (List.range pl).map fun p =>
          [(segments - 1) * pl + p, (segments - 1) * pl + (p + 1) % pl, (p + 1) % pl, p]
        some ⟨profile3 ++ midPoints, midWalls ++ closeWalls⟩

/-- `Polyhedron::sweep` (dim3.rs lines 179-275).  A path shorter than 2
points panics on `path[1]` (modelled `none`); open sweeps triangulate
the two end rings (aborting for profiles of length ≤ 3). -/
def Polyhedron.sweep (ops : NumOps) (profile : List Pt2) (path : List Pt3)
    (twist_degrees : ℚ) (closed : Bool) : Option Polyhedron :=
  if path.length < 2 then none
  else
    let profile3 : List Pt3 := profile.map fun p => p.as_pt3 0
    let pl := profile3.length
    let pathLen := path.length
    let twist_angle : ℚ :=
      if closed then twist_degrees / (pathLen : ℚ)
      else twist_degrees / ((pathLen : ℚ) - 1)
    let up : Pt3 := ⟨0, 0, 1⟩
    let m0 :=
      if closed then
        Mt4.look_at_matrix_lh ops (path.getD (pathLen - 1) dPt3) (path.getD 1 dPt3) up
      else Mt4.look_at_matrix_lh ops (path.getD 0 dPt3) (path.getD 1 dPt3) up
    let ring0 := profile3.map fun p =>
      (m0.mulPt4 (p.as_pt4 1)).as_pt3 + path.getD 0 dPt3
    let startCapQ : Option (List (List Nat)) :=
      if closed then some []
      else (triangulate3d_rev profile3 (path.getD 1 dPt3 - path.getD 0 dPt3)).map groupTris
    match startCapQ with
    | none => none
    | some startCap =>
      let midRing (pathIndex : Nat) : List Pt3 :=
        let m := Mt4.look_at_matrix_lh ops (path.getD (pathIndex - 1) dPt3)
          (path.getD (pathIndex + 1) dPt3) up
        profile3.map fun q =>
          (m.mulPt4 ((Pt3.rotated_z ops q (twist_angle * (pathIndex : ℚ))).as_pt4 0)).as_pt3 +
            path.getD pathIndex dPt3
      let wallQuad (k j : Nat) : List Nat :=
        [(k - 1) * pl + j, (k - 1) * pl + (j + 1) % pl,
          k * pl + (j + 1) % pl, k * pl + j]
      let midPoints := (List.range' 1 (pathLen - 2)).flatMap midRing
      let midWalls := (List.range' 1 (pathLen - 2)).flatMap fun k =>
        (List.range pl).map (wallQuad k)
      let mLast :=
        if closed then
          Mt4.look_at_matrix_lh ops (path.getD (pathLen - 2) dPt3) (path.getD 0 dPt3) up
        else
          Mt4.look_at_matrix_lh ops (path.getD (pathLen - 2) dPt3)
            (path.getD (pathLen - 1) dPt3) up
      let lastRing := profile3.map fun q =>
        (mLast.mulPt4 ((Pt3.rotated_z ops q (twist_angle * ((pathLen : ℚ) - 1))).as_pt4 0)).as_pt3 +
          path.getD (pathLen - 1) dPt3
      let lastWalls := (List.range pl).map (wallQuad (pathLen - 1))
      let allPoints := ring0 ++ midPoints ++ lastRing
      if closed then
        let closeWalls := (List.range pl).map fun j =>
          [(pathLen - 1) * pl + j, (pathLen - 1) * pl + (j + 1) % pl, (j + 1) % pl, j]
        some ⟨allPoints, startCap ++ midWalls ++ lastWalls ++ closeWalls⟩
      else
        match triangulate3d lastRing
          (path.getD (pathLen - 1) dPt3 - path.getD (pathLen - 2) dPt3) with
        | none => none
        | some endTris =>
          let endCap := groupTris (endTris.map fun i => i + allPoints.length - pl)
          some ⟨allPoints, startCap ++ midWalls ++ lastWalls ++ endCap⟩

/-! ### Index-bound lemmas -/

/-- Every chunk produced by `groupTris` has exactly three indices, all
drawn from the flat list. -/
theorem groupTris_mem {l : List Nat} {f : List Nat} (h : f ∈ groupTris l) :
    f.length = 3 ∧ ∀ i ∈ f, i ∈ l := by
  induction l using groupTris.induct with
  | case1 a b c rest ih =>
    rw [groupTris] at h
    rcases List.mem_cons.mp h with hf | hf
    · subst hf
      refine ⟨rfl, ?_⟩
      intro i hi
      simp only [List.mem_cons, List.not_mem_nil, or_false] at hi
      rcases hi with rfl | rfl | rfl <;> simp
    · obtain ⟨h3, hsub⟩ := ih hf
      exact ⟨h3, fun i hi => by
        have := hsub i hi
        simp only [List.mem_cons]
        tauto⟩
  | case2 l h1 =>
    rw [groupTris] at h
    · simp at h
    · exact h1

/-- `groupTris` produces one face per three indices. -/
theorem groupTris_length : ∀ l : List Nat, (groupTris l).length = l.length / 3
  | [] => by simp [groupTris]
  | [_] => by simp [groupTris]
  | [_, _] => by simp [groupTris]
  | a :: b :: c :: rest => by
    rw [groupTris]
    simp only [List.length_cons, groupTris_length rest]
    omega

/-- The tags attached by `triangulate2d` are positions in the input
list. -/
theorem tagPts_fst_lt {vs : List Pt2} {pt : TPt} (h : pt ∈ tagPts vs) :
    pt.1 < vs.length := by
  have := List.mem_enum_iff_getElem?.mp h
  exact (List.getElem?_eq_some.mp this).1

theorem tagPts_length (vs : List Pt2) : (tagPts vs).length = vs.length :=
  List.enum_length

/-- The tags attached by the 3D axis projection are positions in the
input list. -/
theorem projectPolygon_fst_lt {vs : List Pt3} {nml : Pt3} {pt : TPt}
    (h : pt ∈ projectPolygon vs nml) : pt.1 < vs.length := by
  unfold projectPolygon at h
  repeat' split at h
  all_goals
    first
    | exact absurd h (List.not_mem_nil pt)
    | · obtain ⟨iv, hiv, heq⟩ := List.mem_map.mp h
        have := List.mem_enum_iff_getElem?.mp hiv
        have hlt := (List.getElem?_eq_some.mp this).1
        rw [← heq]
        exact hlt

/-- One of the three dominant-axis branches always fires, so the
projection preserves the vertex count. -/
theorem projectPolygon_length (vs : List Pt3) (nml : Pt3) :
    (projectPolygon vs nml).length = vs.length := by
  have h3 : (|nml.x| ≥ |nml.y| ∧ |nml.x| ≥ |nml.z|) ∨
      (|nml.y| ≥ |nml.x| ∧ |nml.y| ≥ |nml.z|) ∨
      (|nml.z| ≥ |nml.x| ∧ |nml.z| ≥ |nml.y|) := by
    rcases le_total |nml.x| |nml.y| with hxy | hxy
    · rcases le_total |nml.y| |nml.z| with hyz | hyz
      · exact Or.inr (Or.inr ⟨hxy.trans hyz, hyz⟩)
      · exact Or.inr (Or.inl ⟨hxy, hyz⟩)
    · rcases le_total |nml.x| |nml.z| with hxz | hxz
      · exact Or.inr (Or.inr ⟨hxz, hxy.trans hxz⟩)
      · exact Or.inl ⟨hxy, hxz⟩
  unfold projectPolygon
  split
  · split <;> simp
  · split
    · split <;> simp
    · split
      · split <;> simp
      · tauto

/-- Every index emitted by `triangulate2d` addresses an input vertex. -/
theorem triangulate2d_lt {vs : List Pt2} {out : List Nat}
    (h : triangulate2d vs = some out) : ∀ i ∈ out, i < vs.length := by
  intro i hi
  rw [triangulate2d] at h
  split at h
  · rw [triangulate] at h
    split at h
    · exact absurd h (by simp)
    · dsimp only at h
      split at h
      · exact absurd h (by simp)
      · have hout : out = (clipLoop (tagPts vs)).1 := by
          injection h with h2; exact h2.symm
        rw [hout] at hi
        obtain ⟨pt, hpt, hpti⟩ := clipLoop_fst_mem (tagPts vs) i hi
        rw [← hpti]
        exact tagPts_fst_lt hpt
  · exact absurd h (by simp)

/-- Every index emitted by `triangulate3d` addresses an input vertex. -/
theorem triangulate3d_lt {vs : List Pt3} {nml : Pt3} {out : List Nat}
    (h : triangulate3d vs nml = some out) : ∀ i ∈ out, i < vs.length := by
  intro i hi
  rw [triangulate3d] at h
  split at h
  · rw [triangulate] at h
    split at h
    · exact absurd h (by simp)
    · dsimp only at h
      split at h
      · exact absurd h (by simp)
      · have hout : out = (clipLoop (projectPolygon vs nml)).1 := by
          injection h with h2; exact h2.symm
        rw [hout] at hi
        obtain ⟨pt, hpt, hpti⟩ := clipLoop_fst_mem (projectPolygon vs nml) i hi
        rw [← hpti]
        exact projectPolygon_fst_lt hpt
  · exact absurd h (by simp)

/-- Bound transfer to the winding-reversed 2D triangulation. -/
theorem triangulate2d_rev_lt {vs : List Pt2} {out : List Nat}
    (h : triangulate2d_rev vs = some out) : ∀ i ∈ out, i < vs.length := by
  rw [triangulate2d_rev] at h
  obtain ⟨o, ho, hrev⟩ := Option.map_eq_some'.mp h
  intro i hi
  rw [← hrev] at hi
  exact triangulate2d_lt ho i (List.mem_reverse.mp hi)

/-- Bound transfer to the winding-reversed 3D triangulation. -/
theorem triangulate3d_rev_lt {vs : List Pt3} {nml : Pt3} {out : List Nat}
    (h : triangulate3d_rev vs nml = some out) : ∀ i ∈ out, i < vs.length := by
  rw [triangulate3d_rev] at h
  obtain ⟨o, ho, hrev⟩ := Option.map_eq_some'.mp h
  intro i hi
  rw [← hrev] at hi
  exact triangulate3d_lt ho i (List.mem_reverse.mp hi)

/-- A successful `triangulate2d` call implies the entry assertion
passed. -/
theorem triangulate2d_some_len {vs : List Pt2} {out : List Nat}
    (h : triangulate2d vs = some out) : 3 < vs.length := by
  rw [triangulate2d] at h
  split at h
  · assumption
  · exact absurd h (by simp)

/-- A successful `triangulate3d` call implies the entry assertion
passed. -/
theorem triangulate3d_some_len {vs : List Pt3} {nml : Pt3} {out : List Nat}
    (h : triangulate3d vs nml = some out) : 3 < vs.length := by
  rw [triangulate3d] at h
  split at h
  · assumption
  · exact absurd h (by simp)

/-- Lengths of constant-width flat maps (rings of a fixed profile). -/
theorem flatMap_const_length {α : Type} (l : List α) (f : α → List Pt3) (c : Nat)
    (h : ∀ a ∈ l, (f a).length = c) : (l.flatMap f).length = l.length * c := by
  induction l with
  | nil => simp
  | cons a l ih =>
    simp only [List.flatMap_cons, List.length_append, List.length_cons]
    rw [h a (List.mem_cons_self a l), ih fun b hb => h b (List.mem_cons_of_mem a hb)]
    ring


/-- A successful winding-reversed 2D triangulation implies the entry
assertion passed. -/
theorem triangulate2d_rev_some_len {vs : List Pt2} {out : List Nat}
    (h : triangulate2d_rev vs = some out) : 3 < vs.length := by
  rw [triangulate2d_rev] at h
  obtain ⟨o, ho, hrev⟩ := Option.map_eq_some'.mp h
  exact triangulate2d_some_len ho

/-- A successful winding-reversed 3D triangulation implies the entry
assertion passed. -/
theorem triangulate3d_rev_some_len {vs : List Pt3} {nml : Pt3} {out : List Nat}
    (h : triangulate3d_rev vs nml = some out) : 3 < vs.length := by
  rw [triangulate3d_rev] at h
  obtain ⟨o, ho, hrev⟩ := Option.map_eq_some'.mp h
  exact triangulate3d_some_len ho

/-! ### The mesh index-bound invariant (claim C5) -/

/-- The invariant claimed for every returned mesh: each face has at
least 3 indices and every index addresses the shared vertex list. -/
def meshOk (m : Polyhedron) : Prop :=
  ∀ f ∈ m.faces, 3 ≤ f.length ∧ ∀ i ∈ f, i < m.points.length

instance (m : Polyhedron) : Decidable (meshOk m) := by
  unfold meshOk
  infer_instance

/-- `(s - 1) * p + p = s * p` for positive `s`. -/
theorem pred_mul_add {s : Nat} (p : Nat) (h : 1 ≤ s) : (s - 1) * p + p = s * p := by
  cases s with
  | zero => omega
  | succ n => simp [Nat.succ_sub_one, Nat.succ_mul]

theorem linear_extrude_meshOk (points : List Pt2) (height : ℚ) (mesh : Polyhedron)
    (h : Polyhedron.linear_extrude points height = some mesh) : meshOk mesh := by
  rw [Polyhedron.linear_extrude] at h
  split at h
  · exact absurd h (by simp)
  · rename_i indices heq1
    dsimp only at h
    split at h
    · exact absurd h (by simp)
    · rename_i indices2 heq2
      injection h with hmesh
      subst hmesh
      have hn : 3 < points.length := triangulate2d_some_len heq2
      have hb1 := triangulate2d_rev_lt heq1
      have hb2 := triangulate2d_lt heq2
      intro f hf
      simp only [List.mem_append] at hf
      have hptsLen : (((points.map fun p => p.as_pt3 0) ++
          points.map fun p => p.as_pt3 height) : List Pt3).length =
          2 * points.length := by
        simp; ring
      rw [hptsLen]
      rcases hf with (hf | hf) | hf
      · obtain ⟨h3, hsub⟩ := groupTris_mem hf
        refine ⟨by omega, fun i hi => ?_⟩
        have := hb1 i (hsub i hi)
        omega
      · obtain ⟨h3, hsub⟩ := groupTris_mem hf
        refine ⟨by omega, fun i hi => ?_⟩
        obtain ⟨i0, hi0, hi0e⟩ := List.mem_map.mp (hsub i hi)
        have := hb2 i0 hi0
        omega
      · obtain ⟨i, hi, hfe⟩ := List.mem_map.mp hf
        have hilt := List.mem_range.mp hi
        subst hfe
        refine ⟨by simp, fun j hj => ?_⟩
        have hmod : (i + 1) % points.length < points.length :=
          Nat.mod_lt _ (by omega)
        simp only [List.mem_cons, List.not_mem_nil, or_false] at hj
        rcases hj with rfl | rfl | rfl | rfl <;> omega

/-- Length of a flat map whose rings are mapped copies of a fixed
profile. -/
theorem flatMap_map_length {α β γ δ : Type} (l : List α) (g : α → γ → δ)
    (f : β → γ) (vs : List β) :
    (l.flatMap fun k => List.map (g k) (List.map f vs)).length =
      l.length * vs.length := by
  induction l with
  | nil => simp
  | cons a t ih =>
    simp only [List.flatMap_cons, List.length_append, List.length_map,
      List.length_cons, ih]
    have : t.length * vs.length + vs.length = (t.length + 1) * vs.length := by
      ring
    omega

theorem rotate_extrude_meshOk (ops : NumOps) (profile : List Pt2) (degrees : ℚ)
    (segments : Nat) (mesh : Polyhedron)
    (h : Polyhedron.rotate_extrude ops profile degrees segments = some mesh) :
    meshOk mesh := by
  rw [Polyhedron.rotate_extrude] at h
  split at h
  · exact absurd h (by simp)
  · split at h
    · exact absurd h (by simp)
    · rename_i hrange hseg
      rw [not_not] at hseg
      dsimp only at h
      by_cases h360 : degrees = 360
      · -- closed revolution: no caps
        simp only [if_neg (by simp [h360] : ¬degrees ≠ 360)] at h
        injection h with hmesh
        subst hmesh
        intro f hf
        simp only [List.mem_append] at hf
        simp only [List.length_append, List.length_map, flatMap_map_length,
          List.length_range']
        rcases hf with hf | hf
        · -- wall quads of the middle segments
          obtain ⟨seg, hsegm, hf2⟩ := List.mem_flatMap.mp hf
          obtain ⟨j, hj, hfe⟩ := List.mem_map.mp hf2
          have hjP : j < profile.length := by simpa using List.mem_range.mp hj
          have hsegb := List.mem_range'_1.mp hsegm
          subst hfe
          simp only [List.length_map]
          refine ⟨by simp, fun i hi => ?_⟩
          have hmod : (j + 1) % profile.length < profile.length :=
            Nat.mod_lt _ (by omega)
          have hm1 : seg * profile.length ≤ (segments - 1) * profile.length :=
            Nat.mul_le_mul_right _ (by omega)
          have hm2 : (seg - 1) * profile.length + profile.length =
              seg * profile.length := pred_mul_add _ (by omega)
          simp only [List.mem_cons, List.not_mem_nil, or_false] at hi
          rcases hi with rfl | rfl | rfl | rfl <;> omega
        · -- closing wall strip
          obtain ⟨j, hj, hfe⟩ := List.mem_map.mp hf
          have hjP : j < profile.length := by simpa using List.mem_range.mp hj
          subst hfe
          simp only [List.length_map]
          refine ⟨by simp, fun i hi => ?_⟩
          have hmod : (j + 1) % profile.length < profile.length :=
            Nat.mod_lt _ (by omega)
          have hm2 : (segments - 1) * profile.length + profile.length =
              segments * profile.length := pred_mul_add _ (by omega)
          simp only [List.mem_cons, List.not_mem_nil, or_false] at hi
          rcases hi with rfl | rfl | rfl | rfl <;> omega
      · -- partial revolution: caps at both ends
        simp only [if_pos (h360 : degrees ≠ 360)] at h
        split at h
        · exact absurd h (by simp)
        · rename_i startCap heq1
          split at h
          · exact absurd h (by simp)
          · rename_i endTris heq2
            injection h with hmesh
            subst hmesh
            obtain ⟨tris, htris, hgroup⟩ := Option.map_eq_some'.mp heq1
            have hpl : 3 < profile.length := by
              have := triangulate3d_some_len htris
              simpa using this
            have hb1 := triangulate3d_lt htris
            have hb2 := triangulate3d_rev_lt heq2
            intro f hf
            simp only [List.mem_append] at hf
            simp only [List.length_append, List.length_map, flatMap_map_length,
              List.length_range']
            rcases hf with ((hf | hf) | hf) | hf
            · -- start cap
              rw [← hgroup] at hf
              obtain ⟨h3, hsub⟩ := groupTris_mem hf
              refine ⟨by omega, fun i hi => ?_⟩
              have := hb1 i (hsub i hi)
              simp only [List.length_map] at this
              omega
            · -- middle wall quads
              obtain ⟨seg, hsegm, hf2⟩ := List.mem_flatMap.mp hf
              obtain ⟨j, hj, hfe⟩ := List.mem_map.mp hf2
              have hjP : j < profile.length := by simpa using List.mem_range.mp hj
              have hsegb := List.mem_range'_1.mp hsegm
              subst hfe
              simp only [List.length_map]
              refine ⟨by simp, fun i hi => ?_⟩
              have hmod : (j + 1) % profile.length < profile.length :=
                Nat.mod_lt _ (by omega)
              have hm1 : seg * profile.length ≤ (segments - 1) * profile.length :=
                Nat.mul_le_mul_right _ (by omega)
              have hm2 : (seg - 1) * profile.length + profile.length =
                  seg * profile.length := pred_mul_add _ (by omega)
              simp only [List.mem_cons, List.not_mem_nil, or_false] at hi
              rcases hi with rfl | rfl | rfl | rfl <;> omega
            · -- closing wall strip at the last segment
              obtain ⟨j, hj, hfe⟩ := List.mem_map.mp hf
              have hjP : j < profile.length := by simpa using List.mem_range.mp hj
              subst hfe
              simp only [List.length_map]
              refine ⟨by simp, fun i hi => ?_⟩
              have hmod : (j + 1) % profile.length < profile.length :=
                Nat.mod_lt _ (by omega)
              have hm2 : (segments - 1) * profile.length + profile.length =
                  segments * profile.length := pred_mul_add _ (by omega)
              simp only [List.mem_cons, List.not_mem_nil, or_false] at hi
              rcases hi with rfl | rfl | rfl | rfl <;> omega
            · -- end cap
              obtain ⟨h3, hsub⟩ := groupTris_mem hf
              refine ⟨by omega, fun i hi => ?_⟩
              obtain ⟨i0, hi0, hi0e⟩ := List.mem_map.mp (hsub i hi)
              have := hb2 i0 hi0
              have hm2 : (segments - 1) * profile.length + profile.length =
                  segments * profile.length := pred_mul_add _ (by omega)
              simp only [List.length_map] at this hi0e
              omega
theorem sweep_meshOk (ops : NumOps) (profile : List Pt2) (path : List Pt3)
    (twist_degrees : ℚ) (closed : Bool) (mesh : Polyhedron)
    (h : Polyhedron.sweep ops profile path twist_degrees closed = some mesh) :
    meshOk mesh := by
  rw [Polyhedron.sweep] at h
  split at h
  · exact absurd h (by simp)
  · rename_i hpath
    rw [not_lt] at hpath
    dsimp only at h
    cases closed with
    | true =>
      simp only [if_true, ite_true] at h
      injection h with hmesh
      subst hmesh
      intro f hf
      simp only [List.mem_append] at hf
      simp only [List.length_append, List.length_map, flatMap_map_length,
        List.length_range']
      rcases hf with ((hf | hf) | hf) | hf
      · exact absurd hf (List.not_mem_nil f)
      · -- interior wall quads
        obtain ⟨k, hkm, hf2⟩ := List.mem_flatMap.mp hf
        obtain ⟨j, hj, hfe⟩ := List.mem_map.mp hf2
        have hjP : j < profile.length := by simpa using List.mem_range.mp hj
        have hkb := List.mem_range'_1.mp hkm
        subst hfe
        simp only [List.length_map]
        refine ⟨by simp, fun i hi => ?_⟩
        have hmod : (j + 1) % profile.length < profile.length := Nat.mod_lt _ (by omega)
        have hm1 : k * profile.length ≤ (path.length - 2) * profile.length :=
          Nat.mul_le_mul_right _ (by omega)
        have hm2 : (k - 1) * profile.length + profile.length = k * profile.length :=
          pred_mul_add _ (by omega)
        simp only [List.mem_cons, List.not_mem_nil, or_false] at hi
        rcases hi with rfl | rfl | rfl | rfl <;> omega
      · -- wall quads joining the two final rings
        obtain ⟨j, hj, hfe⟩ := List.mem_map.mp hf
        have hjP : j < profile.length := by simpa using List.mem_range.mp hj
        subst hfe
        simp only [List.length_map]
        refine ⟨by simp, fun i hi => ?_⟩
        have hmod : (j + 1) % profile.length < profile.length := Nat.mod_lt _ (by omega)
        have hA : (path.length - 1 - 1) * profile.length + profile.length =
            (path.length - 1) * profile.length := pred_mul_add _ (by omega)
        have hB : (path.length - 2) * profile.length + profile.length =
            (path.length - 1) * profile.length := by
          have hx : path.length - 2 = path.length - 1 - 1 := by omega
          rw [hx]; exact hA
        simp only [List.mem_cons, List.not_mem_nil, or_false] at hi
        rcases hi with rfl | rfl | rfl | rfl <;> omega
      · -- closing wall strip back to the first ring
        obtain ⟨j, hj, hfe⟩ := List.mem_map.mp hf
        have hjP : j < profile.length := by simpa using List.mem_range.mp hj
        subst hfe
        simp only [List.length_map]
        refine ⟨by simp, fun i hi => ?_⟩
        have hmod : (j + 1) % profile.length < profile.length := Nat.mod_lt _ (by omega)
        have hA : (path.length - 1 - 1) * profile.length + profile.length =
            (path.length - 1) * profile.length := pred_mul_add _ (by omega)
        have hB : (path.length - 2) * profile.length + profile.length =
            (path.length - 1) * profile.length := by
          have hx : path.length - 2 = path.length - 1 - 1 := by omega
          rw [hx]; exact hA
        simp only [List.mem_cons, List.not_mem_nil, or_false] at hi
        rcases hi with rfl | rfl | rfl | rfl <;> omega
    | false =>
      simp only [if_false, ite_false, Bool.false_eq_true] at h
      split at h
      · exact absurd h (by simp)
      · rename_i startCap heq1
        split at h
        · exact absurd h (by simp)
        · rename_i endTris heq2
          injection h with hmesh
          subst hmesh
          obtain ⟨tris, htris, hgroup⟩ := Option.map_eq_some'.mp heq1
          have hpl : 3 < profile.length := by
            have h1 := triangulate3d_rev_some_len htris
            simpa using h1
          have hb1 := triangulate3d_rev_lt htris
          have hb2 := triangulate3d_lt heq2
          intro f hf
          simp only [List.mem_append] at hf
          simp only [List.length_append, List.length_map, flatMap_map_length,
            List.length_range']
          rcases hf with ((hf | hf) | hf) | hf
          · -- start cap
            rw [← hgroup] at hf
            obtain ⟨h3, hsub⟩ := groupTris_mem hf
            refine ⟨by omega, fun i hi => ?_⟩
            have := hb1 i (hsub i hi)
            simp only [List.length_map] at this
            omega
          · -- interior wall quads
            obtain ⟨k, hkm, hf2⟩ := List.mem_flatMap.mp hf
            obtain ⟨j, hj, hfe⟩ := List.mem_map.mp hf2
            have hjP : j < profile.length := by simpa using List.mem_range.mp hj
            have hkb := List.mem_range'_1.mp hkm
            subst hfe
            simp only [List.length_map]
            refine ⟨by simp, fun i hi => ?_⟩
            have hmod : (j + 1) % profile.length < profile.length := Nat.mod_lt _ (by omega)
            have hm1 : k * profile.length ≤ (path.length - 2) * profile.length :=
              Nat.mul_le_mul_right _ (by omega)
            have hm2 : (k - 1) * profile.length + profile.length = k * profile.length :=
              pred_mul_add _ (by omega)
            simp only [List.mem_cons, List.not_mem_nil, or_false] at hi
            rcases hi with rfl | rfl | rfl | rfl <;> omega
          · -- wall quads joining the two final rings
            obtain ⟨j, hj, hfe⟩ := List.mem_map.mp hf
            have hjP : j < profile.length := by simpa using List.mem_range.mp hj
            subst hfe
            simp only [List.length_map]
            refine ⟨by simp, fun i hi => ?_⟩
            have hmod : (j + 1) % profile.length < profile.length := Nat.mod_lt _ (by omega)
            have hA : (path.length - 1 - 1) * profile.length + profile.length =
                (path.length - 1) * profile.length := pred_mul_add _ (by omega)
            have hB : (path.length - 2) * profile.length + profile.length =
                (path.length - 1) * profile.length := by
              have hx : path.length - 2 = path.length - 1 - 1 := by omega
              rw [hx]; exact hA
            simp only [List.mem_cons, List.not_mem_nil, or_false] at hi
            rcases hi with rfl | rfl | rfl | rfl <;> omega
          · -- end cap on the transformed final ring
            obtain ⟨h3, hsub⟩ := groupTris_mem hf
            refine ⟨by omega, fun i hi => ?_⟩
            obtain ⟨i0, hi0, hi0e⟩ := List.mem_map.mp (hsub i hi)
            have hlast := hb2 i0 hi0
            simp only [List.length_map] at hlast
            simp only [List.length_append, List.length_map, flatMap_map_length,
              List.length_range'] at hi0e
            omega

/-! ### Cubic bezier chains (dim2.rs lines 241-311, dim3.rs lines 361-431) -/

instance : Add Pt2 := ⟨fun a b => ⟨a.x + b.x, a.y + b.y⟩⟩

instance : Sub Pt2 := ⟨fun a b => ⟨a.x - b.x, a.y - b.y⟩⟩

instance : HMul Pt2 ℚ Pt2 := ⟨fun a s => ⟨a.x * s, a.y * s⟩⟩

instance : HMul Pt3 ℚ Pt3 := ⟨fun a s => ⟨a.x * s, a.y * s, a.z * s⟩⟩

/-- `Pt2::normalized`. -/
def Pt2.normalized (ops : NumOps) (a : Pt2) : Pt2 :=
  let l := ops.sqrtQ (a.x * a.x + a.y * a.y)
  ⟨a.x / l, a.y / l⟩

/-- `cubic_bezier` for `Pt2` (dim2.rs lines 98-111): `segments + 1`
points at `t = i * (1 / segments)`.  (For `segments = 0` the source
produces `delta = inf`; over `ℚ` the convention is `1 / 0 = 0` — only
the point count matters to the claims below.) -/
def cubic_bezier (start control1 control2 endP : Pt2) (segments : Nat) : List Pt2 :=
  let delta : ℚ := 1 / (segments : ℚ)
  (List.range (segments + 1)).map fun (i : Nat) =>
    let t : ℚ := (i : ℚ) * delta
    start * (1 - t) * (1 - t) * (1 - t) + control1 * t * (1 - t) * (1 - t) * (3 : ℚ) +
      control2 * t * t * (1 - t) * (3 : ℚ) + endP * t * t * t

/-- `cubic_bezier` for `Pt3` (dim3.rs lines 292-305). -/
def cubic_bezier3 (start control1 control2 endP : Pt3) (segments : Nat) : List Pt3 :=
  let delta : ℚ := 1 / (segments : ℚ)
  (List.range (segments + 1)).map fun (i : Nat) =>
    let t : ℚ := (i : ℚ) * delta
    start * (1 - t) * (1 - t) * (1 - t) + control1 * t * (1 - t) * (1 - t) * (3 : ℚ) +
      control2 * t * t * (1 - t) * (3 : ℚ) + endP * t * t * t

/-- `CubicBezier2D` (`end` is a Lean keyword, the field is `endP`). -/
structure CubicBezier2D where
  start : Pt2
  control1 : Pt2
  control2 : Pt2
  endP : Pt2
  segments : Nat
  deriving DecidableEq, Repr

/-- `CubicBezier3D`. -/
structure CubicBezier3D where
  start : Pt3
  control1 : Pt3
  control2 : Pt3
  endP : Pt3
  segments : Nat
  deriving DecidableEq, Repr

/-- Default curve used to totalize `Vec` indexing (`self.curves[..]`);
chains always hold at least one curve, so it is never read. -/
def dCB2 : CubicBezier2D := ⟨⟨0, 0⟩, ⟨0, 0⟩, ⟨0, 0⟩, ⟨0, 0⟩, 0⟩

def dCB3 : CubicBezier3D := ⟨⟨0, 0, 0⟩, ⟨0, 0, 0⟩, ⟨0, 0, 0⟩, ⟨0, 0, 0⟩, 0⟩

/-- `CubicBezierChain2D { curves, closed }`. -/
structure CubicBezierChain2D where
  curves : List CubicBezier2D
  closed : Bool
  deriving DecidableEq, Repr

/-- `CubicBezierChain3D`. -/
structure CubicBezierChain3D where
  curves : List CubicBezier3D
  closed : Bool
  deriving DecidableEq, Repr

/-- `CubicBezierChain2D::new`: one starting curve, `closed: false`. -/
def CubicBezierChain2D.new (start control1 control2 endP : Pt2) (segments : Nat) :
    CubicBezierChain2D :=
  ⟨[⟨start, control1, control2, endP, segments⟩], false⟩

/-- `CubicBezierChain2D::add` (dim2.rs lines 261-277): appends a curve
whose first control point mirrors the previous terminal tangent.  The
source has no guard on `closed`. -/
def CubicBezierChain2D.add (ops : NumOps) (chain : CubicBezierChain2D)
    (control1_length : ℚ) (control2 endP : Pt2) (segments : Nat) : CubicBezierChain2D :=
  let chain_end := chain.curves.getD (chain.curves.length - 1) dCB2
  ⟨chain.curves ++
      [⟨chain_end.endP,
        chain_end.endP +
          Pt2.normalized ops (chain_end.endP - chain_end.control2) * control1_length,
        control2, endP, segments⟩],
    chain.closed⟩

/-- `CubicBezierChain2D::close` (dim2.rs lines 279-292): set the flag,
`add` a final segment back to the chain start, then retroactively fix
the first curve's `control1`. -/
def CubicBezierChain2D.close (ops : NumOps) (chain : CubicBezierChain2D)
    (control1_length : ℚ) (control2 : Pt2) (start_control1_len : ℚ)
    (segments : Nat) : CubicBezierChain2D :=
  let c1 : CubicBezierChain2D := ⟨chain.curves, true⟩
  let c2 := c1.add ops control1_length control2
    (chain.curves.getD 0 dCB2).start segments
  let chain_end := c2.curves.getD (c2.curves.length - 1) dCB2
  let c0 := c2.curves.getD 0 dCB2
  ⟨c2.curves.set 0
      { c0 with
        control1 := chain_end.endP +
          Pt2.normalized ops (chain_end.endP - chain_end.control2) * start_control1_len },
    c2.closed⟩

/-- `CubicBezierChain2D::gen_points` (dim2.rs lines 294-311): start from
a dummy point, and for each curve pop the duplicated junction point
before appending the curve's `segments + 1` points; a closed chain pops
the final point (which duplicates the chain start). -/
def CubicBezierChain2D.gen_points (chain : CubicBezierChain2D) : List Pt2 :=
  let pts := chain.curves.foldl
    (fun acc c => acc.dropLast ++ cubic_bezier c.start c.control1 c.control2 c.endP c.segments)
    [(⟨0, 0⟩ : Pt2)]
  if chain.closed then pts.dropLast else pts

/-- `Pt3`-chain `new` (dim3.rs lines 368-379). -/
def CubicBezierChain3D.new (start control1 control2 endP : Pt3) (segments : Nat) :
    CubicBezierChain3D :=
  ⟨[⟨start, control1, control2, endP, segments⟩], false⟩

/-- `CubicBezierChain3D::add` (dim3.rs lines 381-398), no guard on
`closed`. -/
def CubicBezierChain3D.add (ops : NumOps) (chain : CubicBezierChain3D)
    (control1_length : ℚ) (control2 endP : Pt3) (segments : Nat) : CubicBezierChain3D :=
  let chain_end := chain.curves.getD (chain.curves.length - 1) dCB3
  ⟨chain.curves ++
      [⟨chain_end.endP,
        chain_end.endP +
          Pt3.normalized ops (chain_end.endP - chain_end.control2) * control1_length,
        control2, endP, segments⟩],
    chain.closed⟩

/-- `CubicBezierChain3D::close` (dim3.rs lines 400-412). -/
def CubicBezierChain3D.close (ops : NumOps) (chain : CubicBezierChain3D)
    (control1_length : ℚ) (control2 : Pt3) (start_control1_len : ℚ)
    (segments : Nat) : CubicBezierChain3D :=
  let c1 : CubicBezierChain3D := ⟨chain.curves, true⟩
  let c2 := c1.add ops control1_length control2
    (chain.curves.getD 0 dCB3).start segments
  let chain_end := c2.curves.getD (c2.curves.length - 1) dCB3
  let c0 := c2.curves.getD 0 dCB3
  ⟨c2.curves.set 0
      { c0 with
        control1 := chain_end.endP +
          Pt3.normalized ops (chain_end.endP - chain_end.control2) * start_control1_len },
    c2.closed⟩

/-- `CubicBezierChain3D::gen_points` (dim3.rs lines 414-431). -/
def CubicBezierChain3D.gen_points (chain : CubicBezierChain3D) : List Pt3 :=
  let pts := chain.curves.foldl
    (fun acc c => acc.dropLast ++ cubic_bezier3 c.start c.control1 c.control2 c.endP c.segments)
    [(⟨0, 0, 0⟩ : Pt3)]
  if chain.closed then pts.dropLast else pts

/-! ### Concrete inputs used by counterexamples and witnesses -/

/-- The clockwise unit square (the library's profile winding
convention). -/
def sqProfile : List Pt2 := [⟨0, 0⟩, ⟨0, 1⟩, ⟨1, 1⟩, ⟨1, 0⟩]

/-- A triangle: the smallest simple polygon. -/
def triProfile : List Pt2 := [⟨0, 0⟩, ⟨1, 0⟩, ⟨0, 1⟩]

/-- A self-intersecting quadrilateral (bowtie) that passes the entry
assertions but on which the ear scan stalls with 3 vertices left. -/
def bowtie : List Pt2 := [⟨0, 1⟩, ⟨1, 0⟩, ⟨1, 1⟩, ⟨0, 0⟩]

/-- A working ring on which the code accepts candidate 2 as an ear even
though the ring vertex at position 0 lies strictly inside the candidate
triangle (positions before the candidate are never scanned). -/
def ringC2 : List TPt := [(0, ⟨1, 1⟩), (1, ⟨0, 0⟩), (2, ⟨0, 4⟩), (3, ⟨4, 0⟩)]

/-- A working ring whose candidate 1 forms an exactly collinear
(zero-denominator) triangle with a further vertex left to scan: the
degenerate guard reports that vertex as inside and the candidate is
rejected. -/
def ringC4 : List TPt := [(0, ⟨0, 0⟩), (1, ⟨1, 0⟩), (2, ⟨2, 0⟩), (3, ⟨5, 5⟩)]

/-- A working ring whose candidate 3 is collinear but last in the scan
order, so no vertex is left to test and it is clipped. -/
def ringC4tail : List TPt := [(0, ⟨0, 0⟩), (1, ⟨3, 1⟩), (2, ⟨1, 0⟩), (3, ⟨2, 0⟩)]

/-- A dummy numeric-ops instance (sin 0 / cos 1 / sqrt 0) used to
instantiate the abstracted transcendental functions at witnesses; the
settled properties hold for every instance. -/
def ops0 : NumOps := ⟨fun _ => 0, fun _ => 1, fun _ => 0⟩

/-- A clockwise square profile in the x/z half-plane at x ≥ 1, as
`rotate_extrude` expects. -/
def sqXZ : List Pt2 := [⟨1, 0⟩, ⟨1, 1⟩, ⟨2, 1⟩, ⟨2, 0⟩]

/-- A triangle profile in the x/z half-plane. -/
def triXZ : List Pt2 := [⟨1, 0⟩, ⟨1, 1⟩, ⟨2, 0⟩]

/-- The empty mesh, default for extracting builder results at
witnesses. -/
def dMesh : Polyhedron := ⟨[], []⟩

/-! ### Spec-side predicates (the claim's wording, for comparison with
the code) -/

/-- The spec's acceptance test (a): the candidate triangle is wound
clockwise (strictly — negative cross product). -/
def spec_cw (a b c : TPt) : Prop :=
  (b.2.x - a.2.x) * (c.2.y - a.2.y) - (c.2.x - a.2.x) * (b.2.y - a.2.y) < 0

/-- The spec's acceptance test (b): a point lies strictly inside the
triangle `a b c` — all three exact barycentric coordinates positive. -/
def spec_strictly_inside (p a b c : TPt) : Prop :=
  let denom := (b.2.y - c.2.y) * (a.2.x - c.2.x) + (c.2.x - b.2.x) * (a.2.y - c.2.y)
  denom ≠ 0 ∧
    0 < ((b.2.y - c.2.y) * (p.2.x - c.2.x) + (c.2.x - b.2.x) * (p.2.y - c.2.y)) / denom ∧
    0 < ((c.2.y - a.2.y) * (p.2.x - c.2.x) + (a.2.x - c.2.x) * (p.2.y - c.2.y)) / denom ∧
    0 < 1 - ((b.2.y - c.2.y) * (p.2.x - c.2.x) + (c.2.x - b.2.x) * (p.2.y - c.2.y)) / denom -
      ((c.2.y - a.2.y) * (p.2.x - c.2.x) + (a.2.x - c.2.x) * (p.2.y - c.2.y)) / denom

instance (p a b c : TPt) : Decidable (spec_strictly_inside p a b c) := by
  unfold spec_strictly_inside
  infer_instance

instance (a b c : TPt) : Decidable (spec_cw a b c) := by
  unfold spec_cw
  infer_instance

/-! ### Helper: the ear scan picks the first passing candidate -/

theorem find?_range'_first (p : Nat → Bool) :
    ∀ (s n e : Nat), (List.range' s n).find? p = some e →
      ∀ k, s ≤ k → k < e → p k = false := by
  intro s n
  induction n generalizing s with
  | zero => simp
  | succ m ih =>
    intro e h k hsk hke
    rw [List.range'] at h
    by_cases hps : p s
    · rw [List.find?_cons_of_pos _ hps] at h
      injection h with he
      omega
    · rw [List.find?_cons_of_neg _ hps] at h
      rcases Nat.eq_or_lt_of_le hsk with rfl | hlt
      · exact Bool.eq_false_iff.mpr hps
      · exact ih (s + 1) e h k hlt hke

theorem findEar_first {poly : List TPt} {e : Nat} (h : findEar poly = some e) :
    ∀ k, k < e → earAt poly k = false := by
  rw [findEar, List.range_eq_range'] at h
  intro k hk
  exact find?_range'_first _ 0 poly.length e h k (Nat.zero_le k) hk

/-! ### Claim C1 -/

theorem triangulate2d_eq {vs : List Pt2} {out : List Nat}
    (h : triangulate2d vs = some out) : triangulate (tagPts vs) = some out := by
  rw [triangulate2d] at h
  split at h
  · exact h
  · exact absurd h (by simp)

theorem triangulate3d_eq {vs : List Pt3} {nml : Pt3} {out : List Nat}
    (h : triangulate3d vs nml = some out) :
    triangulate (projectPolygon vs nml) = some out := by
  rw [triangulate3d] at h
  split at h
  · exact h
  · exact absurd h (by simp)

/-- C1 (counterexample): the triangle is a simple polygon with N = 3
vertices, but `triangulate2d` hits the `assert!(vertices.len() > 3)`
and aborts with no index list at all, instead of returning the
3·(3−2) = 3 indices the claim requires. -/
theorem C1_counterexample : triangulate2d triProfile = none := by decide

/-- C1 (amended): the entry points reject N ≤ 3 (`assert!` — no output);
for inputs that pass the assertions and on which the ear-clipping loop
runs to completion (fewer than 3 ring vertices remain), the returned
flat list has exactly 3·(N−2) indices.  This holds for both entry
points. -/
theorem C1_amended :
    (∀ (vs : List Pt2) (out : List Nat), triangulate2d vs = some out →
      (clipLoop (tagPts vs)).2.length < 3 → out.length = 3 * (vs.length - 2)) ∧
    (∀ (vs : List Pt3) (nml : Pt3) (out : List Nat), triangulate3d vs nml = some out →
      (clipLoop (projectPolygon vs nml)).2.length < 3 →
      out.length = 3 * (vs.length - 2)) := by
  constructor
  · intro vs out h hdone
    have h4 := triangulate2d_some_len h
    have := triangulate_complete_length (tagPts vs) out (triangulate2d_eq h) hdone
      (by rw [tagPts_length]; omega)
    rwa [tagPts_length] at this
  · intro vs nml out h hdone
    have h4 := triangulate3d_some_len h
    have := triangulate_complete_length (projectPolygon vs nml) out (triangulate3d_eq h)
      hdone (by rw [projectPolygon_length]; omega)
    rwa [projectPolygon_length] at this

/-- C1 (witness): on the clockwise unit square both hypotheses hold and
the output has 3·(4−2) = 6 indices. -/
theorem C1_witness :
    triangulate2d sqProfile = some [3, 0, 1, 3, 1, 2] ∧
    ([3, 0, 1, 3, 1, 2] : List Nat).length = 3 * (sqProfile.length - 2) :=
  ⟨by decide, C1_amended.1 sqProfile [3, 0, 1, 3, 1, 2] (by decide) (by decide)⟩

/-! ### Claim C2 -/

/-- C2 (counterexample): on the working ring `ringC2` the code accepts
candidate 2 as an ear (the candidate triangle is clockwise and no vertex
AFTER position 2 blocks it), yet the ring vertex at position 0 — which
is neither the predecessor (1) nor the successor (3) — lies strictly
inside the candidate triangle.  The claim's test (b), "no other vertex
remaining anywhere in the working ring lies strictly inside", is
therefore not what the code checks: positions before the candidate are
never scanned. -/
theorem C2_counterexample :
    earAt ringC2 2 = true ∧
    spec_strictly_inside (ringC2.getD 0 dTPt) (ringC2.getD 1 dTPt) (ringC2.getD 2 dTPt)
      (ringC2.getD 3 dTPt) ∧
    0 ≠ prevIdx ringC2.length 2 ∧ (0 : Nat) ≠ 2 ∧ 0 ≠ nextIdx ringC2.length 2 := by
  decide

/-- C2 (amended): a candidate is accepted as an ear iff (a) its triangle
is NOT counter-clockwise (clockwise or degenerate both pass), and (b) no
vertex at a ring position strictly after the candidate — other than the
predecessor and successor — passes the epsilon-tolerant, boundary-
inclusive `in_triangle` test; ring positions before the candidate are
not examined.  The scan takes the first such candidate, emits the
original-index triple (predecessor, candidate, successor) and removes
the candidate from the ring. -/
theorem C2_amended :
    (∀ (poly : List TPt) (i : Nat), earAt poly i = true →
      is_ccw (poly.getD (prevIdx poly.length i) dTPt) (poly.getD i dTPt)
        (poly.getD (nextIdx poly.length i) dTPt) = false ∧
      ∀ j, i + 1 ≤ j → j < poly.length → j ≠ prevIdx poly.length i →
        j ≠ nextIdx poly.length i →
        in_triangle (poly.getD j dTPt) (poly.getD (prevIdx poly.length i) dTPt)
          (poly.getD i dTPt) (poly.getD (nextIdx poly.length i) dTPt) = false) ∧
    (∀ (poly : List TPt) (e : Nat), findEar poly = some e →
      earAt poly e = true ∧ ∀ k, k < e → earAt poly k = false) ∧
    (∀ (poly : List TPt) (e : Nat), ¬poly.length < 3 → findEar poly = some e →
      clipLoop poly =
        ((poly.getD (prevIdx poly.length e) dTPt).1 ::
            (poly.getD e dTPt).1 ::
              (poly.getD (nextIdx poly.length e) dTPt).1 ::
                (clipLoop (poly.eraseIdx e)).1,
          (clipLoop (poly.eraseIdx e)).2)) := by
  refine ⟨?_, ?_, ?_⟩
  · intro poly i h
    rw [earAt] at h
    split at h
    · exact absurd h (by simp)
    · rename_i hccw
      refine ⟨Bool.not_eq_true _ ▸ (by simpa using hccw), ?_⟩
      intro j h1 h2 hp hn
      have hj : j ∈ List.range' (i + 1) (poly.length - (i + 1)) :=
        List.mem_range'_1.mpr ⟨h1, by omega⟩
      have hb := List.all_eq_true.mp h j hj
      rw [decide_eq_false hp, decide_eq_false hn, Bool.false_or, Bool.false_or] at hb
      simpa using hb
  · intro poly e hfind
    refine ⟨List.find?_some (by rwa [findEar] at hfind), findEar_first hfind⟩
  · intro poly e h3 hfind
    have he := findEar_lt hfind
    have hk : poly.length - 1 + 1 = poly.length := by omega
    have herase := List.length_eraseIdx_of_lt he
    rw [clipLoop, clipLoop, herase, ← hk, clipLoopF]
    rw [hk]
    rw [if_neg h3, hfind]

/-- C2 (witness): on the clockwise unit square the scan accepts
candidate 0 first, the triangle is not ccw, and the loop emits
(3, 0, 1) and removes vertex 0. -/
theorem C2_witness :
    earAt (tagPts sqProfile) 0 = true ∧
    is_ccw ((tagPts sqProfile).getD 3 dTPt) ((tagPts sqProfile).getD 0 dTPt)
      ((tagPts sqProfile).getD 1 dTPt) = false ∧
    clipLoop (tagPts sqProfile) =
      (3 :: 0 :: 1 :: (clipLoop ((tagPts sqProfile).eraseIdx 0)).1,
        (clipLoop ((tagPts sqProfile).eraseIdx 0)).2) :=
  ⟨((C2_amended.2.1 (tagPts sqProfile) 0 (by decide)).1),
    by
      have := (C2_amended.1 (tagPts sqProfile) 0
        ((C2_amended.2.1 (tagPts sqProfile) 0 (by decide)).1)).1
      simpa using this,
    by
      have := C2_amended.2.2 (tagPts sqProfile) 0 (by decide) (by decide)
      simpa using this⟩

/-! ### Claim C3 -/

/-- C3 (counterexample): the bowtie input passes both entry assertions,
the scan clips one ear, then stalls with 3 vertices remaining — and the
call returns the partial list `[3, 0, 1]` (one triangle instead of two)
rather than failing with no output as the claim states. -/
theorem C3_counterexample :
    triangulate2d bowtie = some [3, 0, 1] ∧
    ([3, 0, 1] : List Nat).length < 3 * (bowtie.length - 2) := by
  constructor
  · decide
  · decide

/-- C3 (amended): once the entry assertions pass (N ≥ 4 and the
leftmost-vertex triangle is not counter-clockwise), the call never
fails: the loop `break`s silently when no ear is found and whatever
triangles were accumulated so far are returned to the caller as the
result. -/
theorem C3_amended :
    ∀ vs : List Pt2, 3 < vs.length →
      is_ccw ((tagPts vs).getD (prevIdx (tagPts vs).length
          (leftmostScan (tagPts vs)).1) dTPt)
        ((tagPts vs).getD (leftmostScan (tagPts vs)).1 dTPt)
        ((tagPts vs).getD (nextIdx (tagPts vs).length
          (leftmostScan (tagPts vs)).1) dTPt) = false →
      triangulate2d vs = some (clipLoop (tagPts vs)).1 := by
  intro vs h4 hccw
  rw [triangulate2d, if_pos h4]
  have hne : ¬(tagPts vs).isEmpty := by
    intro hemp
    have h0 : (tagPts vs).length = 0 := by
      cases htag : tagPts vs with
      | nil => simp
      | cons a t => rw [htag] at hemp; simp at hemp
    rw [tagPts_length] at h0
    omega
  exact triangulate_isSome (tagPts vs) hne hccw

/-- C3 (witness): the bowtie satisfies both hypotheses and the returned
(partial) list is exactly what the stalled loop accumulated. -/
theorem C3_witness :
    triangulate2d bowtie = some (clipLoop (tagPts bowtie)).1 :=
  C3_amended bowtie (by decide) (by decide)

/-! ### Claim C4 -/

/-- C4 (counterexample): candidate 1 of `ringC4` has an exactly
collinear (zero-denominator) triangle; a vertex (position 3) remains to
be scanned after it, the degenerate guard of `in_triangle` reports that
vertex as inside, and the candidate is REJECTED — not "treated as a
valid ear and clipped" as the claim states. -/
theorem C4_counterexample :
    approx_eq (((ringC4.getD 0 dTPt).2.y - (ringC4.getD 2 dTPt).2.y) *
        ((ringC4.getD 0 dTPt).2.x - (ringC4.getD 2 dTPt).2.x) +
        ((ringC4.getD 2 dTPt).2.x - (ringC4.getD 0 dTPt).2.x) *
        ((ringC4.getD 0 dTPt).2.y - (ringC4.getD 2 dTPt).2.y)) 0 triEps = true ∧
    earAt ringC4 1 = false := by
  decide

/-- C4 (amended): a candidate whose triangle has a barycentric
denominator within 1e-5 of zero (and which passes the winding test) is
accepted as an ear IF AND ONLY IF no ring position after it other than
its predecessor and successor remains to be scanned — because the
degenerate guard makes `in_triangle` report every scanned vertex as
inside, any remaining vertex causes rejection.  Such candidates are
clipped only from tail positions of the ring. -/
theorem C4_amended :
    ∀ (poly : List TPt) (i : Nat),
      approx_eq (((poly.getD i dTPt).2.y - (poly.getD (nextIdx poly.length i) dTPt).2.y) *
          ((poly.getD (prevIdx poly.length i) dTPt).2.x -
            (poly.getD (nextIdx poly.length i) dTPt).2.x) +
          ((poly.getD (nextIdx poly.length i) dTPt).2.x - (poly.getD i dTPt).2.x) *
          ((poly.getD (prevIdx poly.length i) dTPt).2.y -
            (poly.getD (nextIdx poly.length i) dTPt).2.y)) 0 triEps = true →
      is_ccw (poly.getD (prevIdx poly.length i) dTPt) (poly.getD i dTPt)
        (poly.getD (nextIdx poly.length i) dTPt) = false →
      (earAt poly i = true ↔
        ∀ j, i + 1 ≤ j → j < poly.length →
          j = prevIdx poly.length i ∨ j = nextIdx poly.length i) := by
  intro poly i hdeg hccw
  have htri : ∀ v : TPt,
      in_triangle v (poly.getD (prevIdx poly.length i) dTPt) (poly.getD i dTPt)
        (poly.getD (nextIdx poly.length i) dTPt) = true := by
    intro v
    rw [in_triangle, hdeg]
    simp
  rw [earAt]
  rw [hccw]
  simp only [Bool.false_eq_true, if_false]
  rw [List.all_eq_true]
  constructor
  · intro hall j h1 h2
    have hj : j ∈ List.range' (i + 1) (poly.length - (i + 1)) :=
      List.mem_range'_1.mpr ⟨h1, by omega⟩
    have hb := hall j hj
    rw [htri] at hb
    simpa using hb
  · intro hall j hj
    obtain ⟨h1, h2⟩ := List.mem_range'_1.mp hj
    rcases hall j h1 (by omega) with hc | hc
    · simp [hc]
    · simp [hc]

/-- C4 (witness): the collinear candidate 3 of `ringC4tail` is the last
scan position (nothing after it but its own neighbours), so by the
amended rule it is accepted and clipped. -/
theorem C4_witness : earAt ringC4tail 3 = true :=
  (C4_amended ringC4tail 3 (by decide) (by decide)).mpr (by decide)

/-! ### Claims C9 and C10 -/

theorem cubic_bezier_length (s c1 c2 e : Pt2) (n : Nat) :
    (cubic_bezier s c1 c2 e n).length = n + 1 := by
  rw [cubic_bezier]
  simp only [List.length_map, List.length_range]

theorem cubic_bezier3_length (s c1 c2 e : Pt3) (n : Nat) :
    (cubic_bezier3 s c1 c2 e n).length = n + 1 := by
  rw [cubic_bezier3]
  simp only [List.length_map, List.length_range]

/-- Each `gen_points` fold step pops one junction point and appends
`segments + 1` curve points, so it adds `segments` net. -/
theorem genPoints_fold2 (cs : List CubicBezier2D) :
    ∀ acc : List Pt2, acc ≠ [] →
      (cs.foldl (fun acc c => acc.dropLast ++
          cubic_bezier c.start c.control1 c.control2 c.endP c.segments) acc).length =
        acc.length + (cs.map fun c => c.segments).sum ∧
      cs.foldl (fun acc c => acc.dropLast ++
          cubic_bezier c.start c.control1 c.control2 c.endP c.segments) acc ≠ [] := by
  induction cs with
  | nil => intro acc hne; exact ⟨by simp, hne⟩
  | cons c cs ih =>
    intro acc hne
    have hcb := cubic_bezier_length c.start c.control1 c.control2 c.endP c.segments
    have hpos : 0 < acc.length := List.length_pos.mpr hne
    have hne2 : acc.dropLast ++
        cubic_bezier c.start c.control1 c.control2 c.endP c.segments ≠ [] := by
      intro h0
      have := congrArg List.length h0
      simp only [List.length_append, hcb, List.length_nil] at this
      omega
    obtain ⟨hlen, hne3⟩ := ih _ hne2
    refine ⟨?_, by rw [List.foldl_cons]; exact hne3⟩
    rw [List.foldl_cons, hlen]
    simp only [List.length_append, List.length_dropLast, hcb, List.map_cons,
      List.sum_cons]
    omega

theorem genPoints_fold3 (cs : List CubicBezier3D) :
    ∀ acc : List Pt3, acc ≠ [] →
      (cs.foldl (fun acc c => acc.dropLast ++
          cubic_bezier3 c.start c.control1 c.control2 c.endP c.segments) acc).length =
        acc.length + (cs.map fun c => c.segments).sum ∧
      cs.foldl (fun acc c => acc.dropLast ++
          cubic_bezier3 c.start c.control1 c.control2 c.endP c.segments) acc ≠ [] := by
  induction cs with
  | nil => intro acc hne; exact ⟨by simp, hne⟩
  | cons c cs ih =>
    intro acc hne
    have hcb := cubic_bezier3_length c.start c.control1 c.control2 c.endP c.segments
    have hpos : 0 < acc.length := List.length_pos.mpr hne
    have hne2 : acc.dropLast ++
        cubic_bezier3 c.start c.control1 c.control2 c.endP c.segments ≠ [] := by
      intro h0
      have := congrArg List.length h0
      simp only [List.length_append, hcb, List.length_nil] at this
      omega
    obtain ⟨hlen, hne3⟩ := ih _ hne2
    refine ⟨?_, by rw [List.foldl_cons]; exact hne3⟩
    rw [List.foldl_cons, hlen]
    simp only [List.length_append, List.length_dropLast, hcb, List.map_cons,
      List.sum_cons]
    omega

/-- C9 (counterexample): `close()` leaves a 2-curve closed chain, and a
subsequent `add()` still appends — the chain grows to 3 curves even
though it is closed, so "no further segments may be appended" is not
enforced by the code. -/
theorem C9_counterexample :
    (((CubicBezierChain2D.new ⟨0, 0⟩ ⟨0, 1⟩ ⟨1, 1⟩ ⟨1, 0⟩ 4).close ops0 1 ⟨2, 2⟩ 1 4).closed
        = true) ∧
    (((CubicBezierChain2D.new ⟨0, 0⟩ ⟨0, 1⟩ ⟨1, 1⟩ ⟨1, 0⟩ 4).close ops0 1 ⟨2, 2⟩ 1 4).curves.length
        = 2) ∧
    ((((CubicBezierChain2D.new ⟨0, 0⟩ ⟨0, 1⟩ ⟨1, 1⟩ ⟨1, 0⟩ 4).close ops0 1 ⟨2, 2⟩ 1 4).add
        ops0 1 ⟨5, 5⟩ ⟨6, 6⟩ 4).curves.length = 3) := by
  decide

/-- C9 (amended): `add()` is not guarded by the `closed` flag: on any
chain, 2D or 3D, closed or not, it appends exactly one further segment
and leaves the flag unchanged.  The "once closed, append nothing"
invariant is a caller obligation, not enforced by the type. -/
theorem C9_amended :
    (∀ (ops : NumOps) (chain : CubicBezierChain2D) (l : ℚ) (c2 e : Pt2) (s : Nat),
      (chain.add ops l c2 e s).curves.length = chain.curves.length + 1 ∧
      (chain.add ops l c2 e s).closed = chain.closed) ∧
    (∀ (ops : NumOps) (chain : CubicBezierChain3D) (l : ℚ) (c2 e : Pt3) (s : Nat),
      (chain.add ops l c2 e s).curves.length = chain.curves.length + 1 ∧
      (chain.add ops l c2 e s).closed = chain.closed) := by
  constructor
  · intro ops chain l c2 e s
    exact ⟨by simp [CubicBezierChain2D.add], by simp [CubicBezierChain2D.add]⟩
  · intro ops chain l c2 e s
    exact ⟨by simp [CubicBezierChain3D.add], by simp [CubicBezierChain3D.add]⟩

/-- C10: `gen_points` returns `(Σ segments) + 1` points for an open
chain and exactly `Σ segments` for a closed one, in both dimensions:
every `cubic_bezier` evaluation contributes `segments + 1` points, each
junction duplicate is popped, and a closed chain pops the final
point. -/
theorem C10_theorem :
    (∀ (s c1 c2 e : Pt2) (n : Nat), (cubic_bezier s c1 c2 e n).length = n + 1) ∧
    (∀ chain : CubicBezierChain2D,
      chain.gen_points.length =
        (chain.curves.map fun c => c.segments).sum + (if chain.closed then 0 else 1)) ∧
    (∀ chain : CubicBezierChain3D,
      chain.gen_points.length =
        (chain.curves.map fun c => c.segments).sum + (if chain.closed then 0 else 1)) := by
  refine ⟨cubic_bezier_length, ?_, ?_⟩
  · intro chain
    rw [CubicBezierChain2D.gen_points]
    obtain ⟨hlen, hne⟩ := genPoints_fold2 chain.curves [⟨0, 0⟩] (by simp)
    split
    · rw [List.length_dropLast, hlen]
      simp
    · rw [hlen]
      simp [Nat.add_comm]
  · intro chain
    rw [CubicBezierChain3D.gen_points]
    obtain ⟨hlen, hne⟩ := genPoints_fold3 chain.curves [⟨0, 0, 0⟩] (by simp)
    split
    · rw [List.length_dropLast, hlen]
      simp
    · rw [hlen]
      simp [Nat.add_comm]

/-! ### Claim C5 -/

/-- The meshes used to witness the invariant at concrete inputs. -/
def mLE : Polyhedron := (Polyhedron.linear_extrude sqProfile 1).getD dMesh

def mRE : Polyhedron := (Polyhedron.rotate_extrude ops0 sqXZ 180 3).getD dMesh

def mRE360 : Polyhedron := (Polyhedron.rotate_extrude ops0 sqXZ 360 3).getD dMesh

def mSW : Polyhedron := (Polyhedron.sweep ops0 sqProfile [⟨0, 0, 0⟩, ⟨0, 0, 2⟩] 0 false).getD dMesh

/-- C5: every mesh returned by the three builders satisfies the
index-bound invariant: each face has at least 3 indices and every index
is strictly below the vertex count. -/
theorem C5_theorem :
    (∀ (points : List Pt2) (height : ℚ) (mesh : Polyhedron),
      Polyhedron.linear_extrude points height = some mesh → meshOk mesh) ∧
    (∀ (ops : NumOps) (profile : List Pt2) (degrees : ℚ) (segments : Nat)
        (mesh : Polyhedron),
      Polyhedron.rotate_extrude ops profile degrees segments = some mesh → meshOk mesh) ∧
    (∀ (ops : NumOps) (profile : List Pt2) (path : List Pt3) (twist_degrees : ℚ)
        (closed : Bool) (mesh : Polyhedron),
      Polyhedron.sweep ops profile path twist_degrees closed = some mesh → meshOk mesh) :=
  ⟨linear_extrude_meshOk, rotate_extrude_meshOk, sweep_meshOk⟩

/-- C5 (witness): the invariant at one concrete extrusion, revolution
and sweep. -/
theorem C5_witness : meshOk mLE ∧ meshOk mRE ∧ meshOk mSW :=
  ⟨C5_theorem.1 sqProfile 1 mLE (by decide),
    C5_theorem.2.1 ops0 sqXZ 180 3 mRE (by decide),
    C5_theorem.2.2 ops0 sqProfile [⟨0, 0, 0⟩, ⟨0, 0, 2⟩] 0 false mSW (by decide)⟩

/-! ### Claim C6 -/

/-- C6 (counterexample): the smallest closed profile the claim covers,
N = 3, panics in the bottom-cap triangulation (`assert!` on the profile
length) — `linear_extrude` returns no mesh at all instead of the claimed
2N-vertex, N+2·(N−2)-face prism. -/
theorem C6_counterexample : Polyhedron.linear_extrude triProfile 1 = none := by decide

/-- C6 (amended): for profiles that pass the triangulation assertion
(N ≥ 4) and whose cap triangulation runs to completion, the mesh has
the claimed shape: the vertex buffer is the profile at z=0 followed by
the profile at z=height (2N vertices), there are N + 2·(N−2) faces, and
the faces after the two caps are exactly the N wall quads
`[i, (i+1) % N, (i+1) % N + N, i + N]`. -/
theorem C6_amended :
    ∀ (points : List Pt2) (height : ℚ) (mesh : Polyhedron),
      Polyhedron.linear_extrude points height = some mesh →
      (clipLoop (tagPts points)).2.length < 3 →
      mesh.points = (points.map fun p => p.as_pt3 0) ++
        (points.map fun p => p.as_pt3 height) ∧
      mesh.points.length = 2 * points.length ∧
      mesh.faces.length = points.length + 2 * (points.length - 2) ∧
      mesh.faces.drop (2 * (points.length - 2)) =
        (List.range points.length).map fun i =>
          [i, (i + 1) % points.length, (i + 1) % points.length + points.length,
            i + points.length] := by
  intro points height mesh h hdone
  rw [Polyhedron.linear_extrude] at h
  split at h
  · exact absurd h (by simp)
  · rename_i indices heq1
    dsimp only at h
    split at h
    · exact absurd h (by simp)
    · rename_i indices2 heq2
      injection h with hmesh
      subst hmesh
      have hn : 3 < points.length := triangulate2d_some_len heq2
      have hlen2 : indices2.length = 3 * (points.length - 2) := by
        have := triangulate_complete_length (tagPts points) indices2
          (triangulate2d_eq heq2) hdone (by rw [tagPts_length]; omega)
        rwa [tagPts_length] at this
      have hrev : indices = indices2.reverse := by
        rw [triangulate2d_rev, heq2] at heq1
        simpa using heq1.symm
      have hlen1 : indices.length = 3 * (points.length - 2) := by
        rw [hrev, List.length_reverse]; exact hlen2
      have hg1 : (groupTris indices).length = points.length - 2 := by
        rw [groupTris_length, hlen1, Nat.mul_div_cancel_left _ (by norm_num)]
      have hg2 : (groupTris (indices2.map fun i => i + points.length)).length =
          points.length - 2 := by
        rw [groupTris_length, List.length_map, hlen2,
          Nat.mul_div_cancel_left _ (by norm_num)]
      refine ⟨rfl, by simp [Nat.two_mul], ?_, ?_⟩
      · simp only [List.length_append, hg1, hg2, List.length_map, List.length_range]
        omega
      · have h12 : ((groupTris indices) ++
            (groupTris (indices2.map fun i => i + points.length))).length =
            2 * (points.length - 2) := by
          rw [List.length_append, hg1, hg2]; omega
        calc (((groupTris indices) ++
              (groupTris (indices2.map fun i => i + points.length))) ++
              ((List.range points.length).map fun i =>
                [i, (i + 1) % points.length, (i + 1) % points.length + points.length,
                  i + points.length])).drop (2 * (points.length - 2))
            = (((groupTris indices) ++
              (groupTris (indices2.map fun i => i + points.length))) ++
              ((List.range points.length).map fun i =>
                [i, (i + 1) % points.length, (i + 1) % points.length + points.length,
                  i + points.length])).drop (((groupTris indices) ++
              (groupTris (indices2.map fun i => i + points.length))).length) := by
              rw [h12]
          _ = (List.range points.length).map fun i =>
                [i, (i + 1) % points.length, (i + 1) % points.length + points.length,
                  i + points.length] := by
              rw [List.drop_left]

/-- C6 (witness): the unit-square prism has 8 vertices in the claimed
layout and 4 + 2·2 faces ending in the 4 wall quads. -/
theorem C6_witness :
    mLE.points.length = 2 * sqProfile.length ∧
    mLE.faces.length = sqProfile.length + 2 * (sqProfile.length - 2) :=
  ⟨(C6_amended sqProfile 1 mLE (by decide) (by decide)).2.1,
    (C6_amended sqProfile 1 mLE (by decide) (by decide)).2.2.1⟩

/-! ### Claim C7 -/

theorem flatMap_range_map_length {α : Type} (l : List Nat) (g : Nat → Nat → α) (n : Nat) :
    (l.flatMap fun k => (List.range n).map (g k)).length = l.length * n := by
  induction l with
  | nil => simp
  | cons a t ih =>
    simp only [List.flatMap_cons, List.length_append, List.length_map,
      List.length_range, List.length_cons, ih]
    have : t.length * n + n = (t.length + 1) * n := by ring
    omega

theorem countP_eq_length_of_all {α : Type} (p : α → Bool) (l : List α)
    (h : ∀ a ∈ l, p a = true) : l.countP p = l.length :=
  List.countP_eq_length.mpr h

theorem countP_eq_zero_of_none {α : Type} (p : α → Bool) (l : List α)
    (h : ∀ a ∈ l, p a = false) : l.countP p = 0 :=
  List.countP_eq_zero.mpr fun a ha => by simp [h a ha]

/-- C7 (counterexample): a 3-point profile revolved through 180°
triggers the cap triangulation's length assertion and the call aborts
with no mesh, instead of producing the claimed two-cap mesh (the claim
quantifies over every profile). -/
theorem C7_counterexample : Polyhedron.rotate_extrude ops0 triXZ 180 4 = none := by
  decide

/-- C7 (amended): for a full revolution (angle = 360) the mesh has
exactly `segments` angular rings — `segments · P` vertices, no
duplicate closing ring — and every face is a wall quad (no caps).  For
a partial revolution (angle ≠ 360) whose two cap triangulations pass
the P ≥ 4 assertion and run to completion, the mesh has `segments + 1`
rings of vertices, exactly 2·(P−2) triangular cap faces and exactly
`segments · P` wall quads. -/
theorem C7_amended :
    (∀ (ops : NumOps) (profile : List Pt2) (segments : Nat) (mesh : Polyhedron),
      Polyhedron.rotate_extrude ops profile 360 segments = some mesh →
      mesh.points.length = segments * profile.length ∧
      ∀ f ∈ mesh.faces, f.length = 4) ∧
    (∀ (ops : NumOps) (profile : List Pt2) (degrees : ℚ) (segments : Nat)
        (mesh : Polyhedron),
      Polyhedron.rotate_extrude ops profile degrees segments = some mesh →
      degrees ≠ 360 →
      (clipLoop (projectPolygon (profile.map fun p => (⟨p.x, 0, p.y⟩ : Pt3))
        ⟨0, -1, 0⟩)).2.length < 3 →
      (clipLoop (projectPolygon (profile.map fun p => (⟨p.x, 0, p.y⟩ : Pt3))
        (Pt3.rotated_z ops ⟨0, -1, 0⟩ (degrees + 180)))).2.length < 3 →
      mesh.points.length = (segments + 1) * profile.length ∧
      mesh.faces.countP (fun f => f.length == 3) = 2 * (profile.length - 2) ∧
      mesh.faces.countP (fun f => f.length == 4) = segments * profile.length) := by
  constructor
  · intro ops profile segments mesh h
    rw [Polyhedron.rotate_extrude] at h
    split at h
    · exact absurd h (by simp)
    · split at h
      · exact absurd h (by simp)
      · rename_i hrange hseg
        rw [not_not] at hseg
        dsimp only at h
        simp only [if_neg (by simp : ¬(360 : ℚ) ≠ 360)] at h
        injection h with hmesh
        subst hmesh
        constructor
        · simp only [List.length_append, List.length_map, flatMap_map_length,
            List.length_range']
          have := pred_mul_add (s := segments) profile.length (by omega)
          omega
        · intro f hf
          simp only [List.mem_append] at hf
          rcases hf with hf | hf
          · obtain ⟨seg, hsegm, hf2⟩ := List.mem_flatMap.mp hf
            obtain ⟨j, hj, hfe⟩ := List.mem_map.mp hf2
            subst hfe
            simp
          · obtain ⟨j, hj, hfe⟩ := List.mem_map.mp hf
            subst hfe
            simp
  · intro ops profile degrees segments mesh h h360 hdone1 hdone2
    rw [Polyhedron.rotate_extrude] at h
    split at h
    · exact absurd h (by simp)
    · split at h
      · exact absurd h (by simp)
      · rename_i hrange hseg
        rw [not_not] at hseg
        dsimp only at h
        simp only [if_pos h360] at h
        split at h
        · exact absurd h (by simp)
        · rename_i startCap heq1
          split at h
          · exact absurd h (by simp)
          · rename_i endTris heq2
            injection h with hmesh
            subst hmesh
            obtain ⟨tris, htris, hgroup⟩ := Option.map_eq_some'.mp heq1
            have hpl : 3 < profile.length := by
              have := triangulate3d_some_len htris
              simpa using this
            have htl : tris.length = 3 * (profile.length - 2) := by
              have h1 := triangulate_complete_length _ tris (triangulate3d_eq htris)
                hdone1 (by rw [projectPolygon_length]; simp; omega)
              rwa [projectPolygon_length, List.length_map] at h1
            have hetl : endTris.length = 3 * (profile.length - 2) := by
              rw [triangulate3d_rev] at heq2
              obtain ⟨o, ho, horev⟩ := Option.map_eq_some'.mp heq2
              have h1 := triangulate_complete_length _ o (triangulate3d_eq ho)
                hdone2 (by rw [projectPolygon_length]; simp; omega)
              rw [projectPolygon_length, List.length_map] at h1
              rw [← horev, List.length_reverse]
              exact h1
            refine ⟨?_, ?_, ?_⟩
            · simp only [List.length_append, List.length_map, flatMap_map_length,
                List.length_range']
              have := pred_mul_add (s := segments) profile.length (by omega)
              have h2 : (segments + 1) * profile.length =
                  segments * profile.length + profile.length := by ring
              omega
            · simp only [List.countP_append]
              have hc1 : (startCap.countP fun f => f.length == 3) = startCap.length := by
                apply countP_eq_length_of_all
                intro f hf
                rw [← hgroup] at hf
                obtain ⟨h3, hsub⟩ := groupTris_mem hf
                simp [h3]
              have hc2 : ((((List.range' 1 (segments - 1)).flatMap fun seg =>
                  (List.range (List.map (fun p => (⟨p.x, 0, p.y⟩ : Pt3)) profile).length).map
                    fun p => [(seg - 1) * (List.map (fun p => (⟨p.x, 0, p.y⟩ : Pt3)) profile).length + p,
                      (seg - 1) * (List.map (fun p => (⟨p.x, 0, p.y⟩ : Pt3)) profile).length +
                        (p + 1) % (List.map (fun p => (⟨p.x, 0, p.y⟩ : Pt3)) profile).length,
                      seg * (List.map (fun p => (⟨p.x, 0, p.y⟩ : Pt3)) profile).length +
                        (p + 1) % (List.map (fun p => (⟨p.x, 0, p.y⟩ : Pt3)) profile).length,
                      seg * (List.map (fun p => (⟨p.x, 0, p.y⟩ : Pt3)) profile).length + p]) :
                  List (List Nat)).countP fun f => f.length == 3) = 0 := by
                apply countP_eq_zero_of_none
                intro f hf
                obtain ⟨seg, hsegm, hf2⟩ := List.mem_flatMap.mp hf
                obtain ⟨j, hj, hfe⟩ := List.mem_map.mp hf2
                subst hfe
                simp
              have hc3 : ((((List.range (List.map (fun p => (⟨p.x, 0, p.y⟩ : Pt3)) profile).length).map
                    fun p => [(segments - 1) * (List.map (fun p => (⟨p.x, 0, p.y⟩ : Pt3)) profile).length + p,
                      (segments - 1) * (List.map (fun p => (⟨p.x, 0, p.y⟩ : Pt3)) profile).length +
                        (p + 1) % (List.map (fun p => (⟨p.x, 0, p.y⟩ : Pt3)) profile).length,
                      segments * (List.map (fun p => (⟨p.x, 0, p.y⟩ : Pt3)) profile).length +
                        (p + 1) % (List.map (fun p => (⟨p.x, 0, p.y⟩ : Pt3)) profile).length,
                      segments * (List.map (fun p => (⟨p.x, 0, p.y⟩ : Pt3)) profile).length + p]) :
                  List (List Nat)).countP fun f => f.length == 3) = 0 := by
                apply countP_eq_zero_of_none
                intro f hf
                obtain ⟨j, hj, hfe⟩ := List.mem_map.mp hf
                subst hfe
                simp
              have hc4 : (((groupTris (endTris.map fun i =>
                    i + segments * (List.map (fun p => (⟨p.x, 0, p.y⟩ : Pt3)) profile).length)) :
                  List (List Nat)).countP fun f => f.length == 3) =
                  ((groupTris (endTris.map fun i =>
                    i + segments * (List.map (fun p => (⟨p.x, 0, p.y⟩ : Pt3)) profile).length)) :
                  List (List Nat)).length := by
                apply countP_eq_length_of_all
                intro f hf
                obtain ⟨h3, hsub⟩ := groupTris_mem hf
                simp [h3]
              rw [hc1, hc2, hc3, hc4]
              have hsl : startCap.length = profile.length - 2 := by
                rw [← hgroup, groupTris_length, htl,
                  Nat.mul_div_cancel_left _ (by norm_num)]
              have hel : (((groupTris (endTris.map fun i =>
                    i + segments * (List.map (fun p => (⟨p.x, 0, p.y⟩ : Pt3)) profile).length)) :
                  List (List Nat)).length) = profile.length - 2 := by
                rw [groupTris_length, List.length_map, hetl,
                  Nat.mul_div_cancel_left _ (by norm_num)]
              rw [hsl, hel]
              omega
            · simp only [List.countP_append]
              have hc1 : (startCap.countP fun f => f.length == 4) = 0 := by
                apply countP_eq_zero_of_none
                intro f hf
                rw [← hgroup] at hf
                obtain ⟨h3, hsub⟩ := groupTris_mem hf
                simp [h3]
              have hc2 : ((((List.range' 1 (segments - 1)).flatMap fun seg =>
                  (List.range (List.map (fun p => (⟨p.x, 0, p.y⟩ : Pt3)) profile).length).map
                    fun p => [(seg - 1) * (List.map (fun p => (⟨p.x, 0, p.y⟩ : Pt3)) profile).length + p,
                      (seg - 1) * (List.map (fun p => (⟨p.x, 0, p.y⟩ : Pt3)) profile).length +
                        (p + 1) % (List.map (fun p => (⟨p.x, 0, p.y⟩ : Pt3)) profile).length,
                      seg * (List.map (fun p => (⟨p.x, 0, p.y⟩ : Pt3)) profile).length +
                        (p + 1) % (List.map (fun p => (⟨p.x, 0, p.y⟩ : Pt3)) profile).length,
                      seg * (List.map (fun p => (⟨p.x, 0, p.y⟩ : Pt3)) profile).length + p]) :
                  List (List Nat)).countP fun f => f.length == 4) =
                  (((List.range' 1 (segments - 1)).flatMap fun seg =>
                  (List.range (List.map (fun p => (⟨p.x, 0, p.y⟩ : Pt3)) profile).length).map
                    fun p => [(seg - 1) * (List.map (fun p => (⟨p.x, 0, p.y⟩ : Pt3)) profile).length + p,
                      (seg - 1) * (List.map (fun p => (⟨p.x, 0, p.y⟩ : Pt3)) profile).length +
                        (p + 1) % (List.map (fun p => (⟨p.x, 0, p.y⟩ : Pt3)) profile).length,
                      seg * (List.map (fun p => (⟨p.x, 0, p.y⟩ : Pt3)) profile).length +
                        (p + 1) % (List.map (fun p => (⟨p.x, 0, p.y⟩ : Pt3)) profile).length,
                      seg * (List.map (fun p => (⟨p.x, 0, p.y⟩ : Pt3)) profile).length + p]) :
                  List (List Nat)).length := by
                apply countP_eq_length_of_all
                intro f hf
                obtain ⟨seg, hsegm, hf2⟩ := List.mem_flatMap.mp hf
                obtain ⟨j, hj, hfe⟩ := List.mem_map.mp hf2
                subst hfe
                simp
              have hc3 : ((((List.range (List.map (fun p => (⟨p.x, 0, p.y⟩ : Pt3)) profile).length).map
                    fun p => [(segments - 1) * (List.map (fun p => (⟨p.x, 0, p.y⟩ : Pt3)) profile).length + p,
                      (segments - 1) * (List.map (fun p => (⟨p.x, 0, p.y⟩ : Pt3)) profile).length +
                        (p + 1) % (List.map (fun p => (⟨p.x, 0, p.y⟩ : Pt3)) profile).length,
                      segments * (List.map (fun p => (⟨p.x, 0, p.y⟩ : Pt3)) profile).length +
                        (p + 1) % (List.map (fun p => (⟨p.x, 0, p.y⟩ : Pt3)) profile).length,
                      segments * (List.map (fun p => (⟨p.x, 0, p.y⟩ : Pt3)) profile).length + p]) :
                  List (List Nat)).countP fun f => f.length == 4) =
                  (((List.range (List.map (fun p => (⟨p.x, 0, p.y⟩ : Pt3)) profile).length).map
                    fun p => [(segments - 1) * (List.map (fun p => (⟨p.x, 0, p.y⟩ : Pt3)) profile).length + p,
                      (segments - 1) * (List.map (fun p => (⟨p.x, 0, p.y⟩ : Pt3)) profile).length +
                        (p + 1) % (List.map (fun p => (⟨p.x, 0, p.y⟩ : Pt3)) profile).length,
                      segments * (List.map (fun p => (⟨p.x, 0, p.y⟩ : Pt3)) profile).length +
                        (p + 1) % (List.map (fun p => (⟨p.x, 0, p.y⟩ : Pt3)) profile).length,
                      segments * (List.map (fun p => (⟨p.x, 0, p.y⟩ : Pt3)) profile).length + p]) :
                  List (List Nat)).length := by
                apply countP_eq_length_of_all
                intro f hf
                obtain ⟨j, hj, hfe⟩ := List.mem_map.mp hf
                subst hfe
                simp
              have hc4 : (((groupTris (endTris.map fun i =>
                    i + segments * (List.map (fun p => (⟨p.x, 0, p.y⟩ : Pt3)) profile).length)) :
                  List (List Nat)).countP fun f => f.length == 4) = 0 := by
                apply countP_eq_zero_of_none
                intro f hf
                obtain ⟨h3, hsub⟩ := groupTris_mem hf
                simp [h3]
              rw [hc1, hc2, hc3, hc4]
              have hml : ((((List.range' 1 (segments - 1)).flatMap fun seg =>
                  (List.range (List.map (fun p => (⟨p.x, 0, p.y⟩ : Pt3)) profile).length).map
                    fun p => [(seg - 1) * (List.map (fun p => (⟨p.x, 0, p.y⟩ : Pt3)) profile).length + p,
                      (seg - 1) * (List.map (fun p => (⟨p.x, 0, p.y⟩ : Pt3)) profile).length +
                        (p + 1) % (List.map (fun p => (⟨p.x, 0, p.y⟩ : Pt3)) profile).length,
                      seg * (List.map (fun p => (⟨p.x, 0, p.y⟩ : Pt3)) profile).length +
                        (p + 1) % (List.map (fun p => (⟨p.x, 0, p.y⟩ : Pt3)) profile).length,
                      seg * (List.map (fun p => (⟨p.x, 0, p.y⟩ : Pt3)) profile).length + p]) :
                  List (List Nat)).length) = (segments - 1) * profile.length := by
                rw [flatMap_range_map_length]
                simp
              have hll : ((((List.range (List.map (fun p => (⟨p.x, 0, p.y⟩ : Pt3)) profile).length).map
                    fun p => [(segments - 1) * (List.map (fun p => (⟨p.x, 0, p.y⟩ : Pt3)) profile).length + p,
                      (segments - 1) * (List.map (fun p => (⟨p.x, 0, p.y⟩ : Pt3)) profile).length +
                        (p + 1) % (List.map (fun p => (⟨p.x, 0, p.y⟩ : Pt3)) profile).length,
                      segments * (List.map (fun p => (⟨p.x, 0, p.y⟩ : Pt3)) profile).length +
                        (p + 1) % (List.map (fun p => (⟨p.x, 0, p.y⟩ : Pt3)) profile).length,
                      segments * (List.map (fun p => (⟨p.x, 0, p.y⟩ : Pt3)) profile).length + p]) :
                  List (List Nat)).length) = profile.length := by
                simp
              rw [hml, hll]
              have := pred_mul_add (s := segments) profile.length (by omega)
              omega

/-- C7 (witness): a square profile revolved fully with 3 segments gives
3 rings and only quads; revolved through 180° it gives 4 rings,
2·(4−2) = 4 cap triangles and 3·4 = 12 wall quads. -/
theorem C7_witness :
    mRE360.points.length = 3 * sqXZ.length ∧
    mRE.points.length = (3 + 1) * sqXZ.length ∧
    mRE.faces.countP (fun f => f.length == 3) = 2 * (sqXZ.length - 2) ∧
    mRE.faces.countP (fun f => f.length == 4) = 3 * sqXZ.length :=
  ⟨(C7_amended.1 ops0 sqXZ 3 mRE360 (by decide)).1,
    (C7_amended.2 ops0 sqXZ 180 3 mRE (by decide) (by norm_num) (by decide) (by decide)).1,
    (C7_amended.2 ops0 sqXZ 180 3 mRE (by decide) (by norm_num) (by decide) (by decide)).2.1,
    (C7_amended.2 ops0 sqXZ 180 3 mRE (by decide) (by norm_num) (by decide) (by decide)).2.2⟩

/-! ### Claim C8 -/

/-- C8 (counterexample): the assertion is `degrees >= 0.0`, not
`> 0.0`: a sweep angle of exactly 0 — outside the claimed (0, 360]
domain — is accepted and a (degenerate) mesh is returned instead of the
claimed abort. -/
theorem C8_counterexample : (Polyhedron.rotate_extrude ops0 sqXZ 0 3).isSome = true := by
  decide

/-- C8 (amended): `rotate_extrude` asserts 0 ≤ angle ≤ 360 and
segments ≥ 3: any angle outside the closed interval [0, 360], or a
segment count below 3, aborts the call with no mesh; angle = 0 itself
is accepted. -/
theorem C8_amended :
    ∀ (ops : NumOps) (profile : List Pt2) (degrees : ℚ) (segments : Nat),
      degrees < 0 ∨ 360 < degrees ∨ segments < 3 →
      Polyhedron.rotate_extrude ops profile degrees segments = none := by
  intro ops profile degrees segments h
  rw [Polyhedron.rotate_extrude]
  rcases h with h | h | h
  · rw [if_pos]
    intro hc
    linarith [hc.1]
  · rw [if_pos]
    intro hc
    linarith [hc.2]
  · split
    · rfl
    · rw [if_pos (by omega : ¬3 ≤ segments)]

/-- C8 (witness): an angle of 400 aborts. -/
theorem C8_witness : Polyhedron.rotate_extrude ops0 sqXZ 400 3 = none :=
  C8_amended ops0 sqXZ 400 3 (Or.inr (Or.inl (by norm_num)))

end ScadTree
